import Mathlib

/-!
# Verification of the FakeReview feature-engineering + ensemble pipeline

Shallow embedding, in Lean 4, of the core pipeline of the FakeReview
repository: text normalisation (`app/preprocessing/__init__.py`), feature
extraction, the ensemble classifier (`app/classifier/__init__.py`), the
simple prediction path (`src/prediction.py`) and the model trainer
(`src/model_training.py`).

Conventions of the embedding:
* Python strings are `List Char`; Python floats are `ℚ` (the claims under
  study are exact identities or order comparisons, never rounding facts);
* whitespace (`str.split`, `\S`) is modelled by the six ASCII whitespace
  characters; `str.lower` is modelled on the Basic-Latin and Latin-1 range
  (all characters appearing in the repository's data);
* external collaborators (NLTK tokenizer, TextBlob sentiment, fitted
  sklearn estimators) enter as explicit function parameters, as the spec
  prescribes for collaborator capabilities.
-/

namespace FakeReview

/-! ## Characters: whitespace and lowercasing -/

/-- Whitespace as used by Python `str.split()` and the regex class `\S`,
modelled on the ASCII range. -/
def isSpaceChar (c : Char) : Bool :=
  c = ' ' || c = '\t' || c = '\n' || c = '\r' || c = '\x0b' || c = '\x0c'

/-- Python `str.lower`, modelled on the Basic-Latin and Latin-1 range
(`A`–`Z`, `À`–`Þ` except `×`, and `Ÿ`). -/
def pyLower (c : Char) : Char :=
  if 0x41 ≤ c.toNat ∧ c.toNat ≤ 0x5A then Char.ofNat (c.toNat + 32)
  else if 0xC0 ≤ c.toNat ∧ c.toNat ≤ 0xDE ∧ c.toNat ≠ 0xD7 then Char.ofNat (c.toNat + 32)
  else if c.toNat = 0x178 then Char.ofNat 0xFF
  else c

theorem toNat_ofNat_lt {n : ℕ} (h : n < 0xD800) : (Char.ofNat n).toNat = n := by
  unfold Char.ofNat
  rw [dif_pos (Or.inl h : n.isValidChar)]
  unfold Char.ofNatAux
  simp only [Char.toNat, UInt32.toNat, BitVec.toNat_ofNatLt]

/-- `pyLower` is idempotent: the lowercase ranges it produces are outside
the uppercase ranges it rewrites. -/
theorem pyLower_idem (c : Char) : pyLower (pyLower c) = pyLower c := by
  have hfix : ∀ d : Char, ¬ (0x41 ≤ d.toNat ∧ d.toNat ≤ 0x5A) →
      ¬ (0xC0 ≤ d.toNat ∧ d.toNat ≤ 0xDE ∧ d.toNat ≠ 0xD7) →
      ¬ (d.toNat = 0x178) → pyLower d = d := by
    intro d h1 h2 h3
    unfold pyLower
    rw [if_neg h1, if_neg h2, if_neg h3]
  by_cases h1 : 0x41 ≤ c.toNat ∧ c.toNat ≤ 0x5A
  · have hc : pyLower c = Char.ofNat (c.toNat + 32) := by unfold pyLower; rw [if_pos h1]
    have ht : (pyLower c).toNat = c.toNat + 32 := by rw [hc]; exact toNat_ofNat_lt (by omega)
    rw [hfix (pyLower c) (by rw [ht]; omega) (by rw [ht]; omega) (by rw [ht]; omega)]
  · by_cases h2 : 0xC0 ≤ c.toNat ∧ c.toNat ≤ 0xDE ∧ c.toNat ≠ 0xD7
    · have hc : pyLower c = Char.ofNat (c.toNat + 32) := by
        unfold pyLower; rw [if_neg h1, if_pos h2]
      have ht : (pyLower c).toNat = c.toNat + 32 := by rw [hc]; exact toNat_ofNat_lt (by omega)
      rw [hfix (pyLower c) (by rw [ht]; omega) (by rw [ht]; omega) (by rw [ht]; omega)]
    · by_cases h3 : c.toNat = 0x178
      · have hc : pyLower c = Char.ofNat 0xFF := by
          unfold pyLower; rw [if_neg h1, if_neg h2, if_pos h3]
        have ht : (pyLower c).toNat = 0xFF := by rw [hc]; exact toNat_ofNat_lt (by omega)
        rw [hfix (pyLower c) (by rw [ht]; omega) (by rw [ht]; omega) (by rw [ht]; omega)]
      · have hc : pyLower c = c := hfix c h1 h2 h3
        rw [hc]
        exact hc

/-- `pyLower` only produces `'<'` from `'<'` itself. -/
theorem pyLower_eq_lt {c : Char} (h : pyLower c = '<') : c = '<' := by
  have htn : (pyLower c).toNat = 0x3C := by rw [h]; decide
  by_cases h1 : 0x41 ≤ c.toNat ∧ c.toNat ≤ 0x5A
  · have hc : pyLower c = Char.ofNat (c.toNat + 32) := by unfold pyLower; rw [if_pos h1]
    rw [hc, toNat_ofNat_lt (by omega)] at htn
    omega
  · by_cases h2 : 0xC0 ≤ c.toNat ∧ c.toNat ≤ 0xDE ∧ c.toNat ≠ 0xD7
    · have hc : pyLower c = Char.ofNat (c.toNat + 32) := by
        unfold pyLower; rw [if_neg h1, if_pos h2]
      rw [hc, toNat_ofNat_lt (by omega)] at htn
      omega
    · by_cases h3 : c.toNat = 0x178
      · have hc : pyLower c = Char.ofNat 0xFF := by
          unfold pyLower; rw [if_neg h1, if_neg h2, if_pos h3]
        rw [hc, toNat_ofNat_lt (by omega)] at htn
        omega
      · have hc : pyLower c = c := by unfold pyLower; rw [if_neg h1, if_neg h2, if_neg h3]
        rw [← hc]
        exact h

/-! ## `clean_text` (ReviewPreprocessor.clean_text, preprocessing lines 42-78)

The five regex / replace passes are embedded as character-list scanners with
Python `re.sub` leftmost, non-overlapping semantics.
-/

theorem dropWhile_length_le (p : Char → Bool) (l : List Char) :
    (List.dropWhile p l).length ≤ l.length := by
  induction l with
  | nil => simp [List.dropWhile]
  | cons c t ih => by_cases h : p c <;> simp [List.dropWhile, h] <;> omega

/-- Does a match of `http\S+|www\S+` start at the head of the list?
(`\S+` needs at least one non-space character after the literal.) -/
def urlHead : List Char → Bool
  | 'h' :: 't' :: 't' :: 'p' :: f :: _ => !isSpaceChar f
  | 'w' :: 'w' :: 'w' :: f :: _ => !isSpaceChar f
  | _ => false

/-- `re.sub(r'http\S+|www\S+', '', ·)`: a match starting at position `i`
always extends, by greediness of `\S+`, to the end of the maximal non-space
run containing `i`; the scan resumes there. -/
def subUrl : List Char → List Char
  | [] => []
  | c :: rest =>
    if urlHead (c :: rest) then subUrl (List.dropWhile (fun d => !isSpaceChar d) rest)
    else c :: subUrl rest
termination_by s => s.length
decreasing_by
  · exact Nat.lt_succ_of_le (dropWhile_length_le _ _)
  · simp

/-- Scan the leading non-space run of the list for an `'@'` immediately
followed by a non-space character (the `@\S` kernel of `\S+@\S+`). -/
def atFollower : List Char → Bool
  | [] => false
  | [_] => false
  | a :: b :: t =>
    if isSpaceChar a then false
    else if a = '@' && !isSpaceChar b then true
    else atFollower (b :: t)

/-- Does a match of `\S+@\S+` start at the head of the list? The head must
be non-space and the rest of its non-space run must contain `@` with a
non-space follower. -/
def emailHead : List Char → Bool
  | [] => false
  | c :: rest => !isSpaceChar c && atFollower rest

/-- `re.sub(r'\S+@\S+', '', ·)`: with backtracking, a match starting at
position `i` always spans to the end of the non-space run containing `i`. -/
def subEmail : List Char → List Char
  | [] => []
  | c :: rest =>
    if emailHead (c :: rest) then subEmail (List.dropWhile (fun d => !isSpaceChar d) rest)
    else c :: subEmail rest
termination_by s => s.length
decreasing_by
  · exact Nat.lt_succ_of_le (dropWhile_length_le _ _)
  · simp

/-- After a `'<'`, the remainder past the first `'>'`; `none` if a newline
intervenes or no `'>'` follows (`.` in `<.*?>` does not match a newline). -/
def findGt : List Char → Option (List Char)
  | [] => none
  | c :: rest => if c = '>' then some rest else if c = '\n' then none else findGt rest

theorem findGt_length : ∀ {l r : List Char}, findGt l = some r → r.length < l.length := by
  intro l
  induction l with
  | nil => intro r h; simp [findGt] at h
  | cons c rest ih =>
    intro r h
    by_cases hgt : c = '>'
    · simp [findGt, hgt] at h
      subst h; simp
    · by_cases hnl : c = '\n'
      · simp [findGt, hgt, hnl] at h
      · simp [findGt, hgt, hnl] at h
        exact Nat.lt_succ_of_lt (ih h)

/-- `re.sub(r'<.*?>', '', ·)`: lazy match from each `'<'` to the nearest
following `'>'` with no intervening newline. -/
def subHtml : List Char → List Char
  | [] => []
  | c :: rest =>
    if c = '<' then
      match h : findGt rest with
      | some rem => subHtml rem
      | none => c :: subHtml rest
    else c :: subHtml rest
termination_by s => s.length
decreasing_by
  · exact Nat.lt_succ_of_lt (findGt_length h)
  · simp
  · simp

/-- Python `str.replace pat repl`: replace every occurrence of `pat`,
scanning left to right, non-overlapping, resuming after each replacement. -/
def replaceSeq (pat repl : List Char) : List Char → List Char
  | [] => []
  | c :: rest =>
    if pat ≠ [] ∧ pat.isPrefixOf (c :: rest) then
      repl ++ replaceSeq pat repl (List.drop (pat.length - 1) rest)
    else c :: replaceSeq pat repl rest
termination_by s => s.length
decreasing_by
  · exact Nat.lt_succ_of_le (by rw [List.length_drop]; omega)
  · simp

/-- Python `str.split()`: the maximal non-space runs of the string. -/
def pyWords : List Char → List (List Char)
  | [] => []
  | c :: rest =>
    if isSpaceChar c then pyWords rest
    else (c :: List.takeWhile (fun d => !isSpaceChar d) rest) ::
      pyWords (List.dropWhile (fun d => !isSpaceChar d) rest)
termination_by s => s.length
decreasing_by
  · simp
  · exact Nat.lt_succ_of_le (dropWhile_length_le _ _)

/-- `' '.join`: single spaces between words. -/
def unwords : List (List Char) → List Char
  | [] => []
  | [w] => w
  | w :: ws => w ++ ' ' :: unwords ws

/-- `' '.join(text.split())`: collapse whitespace runs to single spaces,
dropping leading and trailing whitespace. -/
def collapseWs (s : List Char) : List Char := unwords (pyWords s)

/-- Mojibake of ❤️ as it appears in the source (U+00E2 U+00A4 U+00EF U+00B8). -/
def mojiHeart : List Char := [Char.ofNat 0xE2, Char.ofNat 0xA4, Char.ofNat 0xEF, Char.ofNat 0xB8]

/-- Mojibake of 👍 (U+00F0 U+0178 U+2018). -/
def mojiLike : List Char := [Char.ofNat 0xF0, Char.ofNat 0x178, Char.ofNat 0x2018]

/-- Mojibake of 👎 (U+00F0 U+0178 U+2018 U+017D). -/
def mojiDislike : List Char := [Char.ofNat 0xF0, Char.ofNat 0x178, Char.ofNat 0x2018, Char.ofNat 0x17D]

/-- Mojibake of 😊 (U+00F0 U+0178 U+02DC U+0160). -/
def mojiHappy : List Char := [Char.ofNat 0xF0, Char.ofNat 0x178, Char.ofNat 0x2DC, Char.ofNat 0x160]

/-- Mojibake of 😢 (U+00F0 U+0178 U+02DC U+00A2). -/
def mojiSad : List Char := [Char.ofNat 0xF0, Char.ofNat 0x178, Char.ofNat 0x2DC, Char.ofNat 0xA2]

/-- The emoji-to-sentiment-word pass of `clean_text` (source lines 69-73). -/
def emojiPass (s : List Char) : List Char :=
  replaceSeq mojiSad " sad ".data
    (replaceSeq mojiHappy " happy ".data
      (replaceSeq mojiDislike " dislike ".data
        (replaceSeq mojiLike " like ".data
          (replaceSeq mojiHeart " love ".data s))))

/-- `ReviewPreprocessor.clean_text` on character lists: lowercase, strip
URLs, strip emails, strip HTML tags, map emoji mojibake to sentiment words,
collapse whitespace. -/
def cleanList (s : List Char) : List Char :=
  collapseWs (emojiPass (subHtml (subEmail (subUrl (s.map pyLower)))))

/-- `ReviewPreprocessor.clean_text`. The `if not text: return ""` guard of
the source agrees with `cleanList []  = []`. -/
def cleanText (s : String) : String := ⟨cleanList s.data⟩

/-! ## Ensemble probability and prediction result
(`FakeReviewClassifier.predict`, classifier lines 244-291, and `train`,
lines 207-213) -/

/-- The ensemble probability of `predict` (classifier lines 272-276):
fixed-weight linear combination of the three base models' positive-class
probabilities. -/
def ensembleProba (w0 w1 w2 p0 p1 p2 : ℚ) : ℚ := w0 * p0 + w1 * p1 + w2 * p2

/-- The element-wise ensemble probability over the held-out test split
inside `train` (classifier lines 207-211). -/
def trainEnsembleProba (w0 w1 w2 : ℚ) : List ℚ → List ℚ → List ℚ → List ℚ
  | a :: as, b :: bs, c :: cs => (w0 * a + w1 * b + w2 * c) :: trainEnsembleProba w0 w1 w2 as bs cs
  | _, _, _ => []

/-- The dictionary returned by `FakeReviewClassifier.predict`
(classifier lines 281-291). -/
structure PredictionResult where
  fake_probability : ℚ
  is_fake : Bool
  confidence : ℚ
  rf_probability : ℚ
  xgb_probability : ℚ
  svm_probability : ℚ
  reasons : List String

/-- Assembly of the `predict` return dictionary (classifier lines 281-291):
`is_fake = fake_probability >= threshold`,
`confidence = abs(fake_probability - 0.5) * 2`. -/
def mkPrediction (threshold w0 w1 w2 p0 p1 p2 : ℚ) (reasons : List String) : PredictionResult :=
  let p := ensembleProba w0 w1 w2 p0 p1 p2
  { fake_probability := p
    is_fake := decide (threshold ≤ p)
    confidence := |p - 1/2| * 2
    rf_probability := p0
    xgb_probability := p1
    svm_probability := p2
    reasons := reasons }

/-! ## The URL and email patterns as match predicates

"Contains no substring matching the pattern" is formalised as the
non-existence of an infix that is a full regex match; the four-or-five
character kernels (`http` plus one non-space follower, `\S@\S`) generate
the same containment relation and drive the proofs. -/

/-- A full match of the URL regex `http\S+|www\S+`. -/
def IsUrlMatch (q : List Char) : Prop :=
  ∃ fs, fs ≠ [] ∧ (∀ c ∈ fs, isSpaceChar c = false) ∧
    (q = 'h' :: 't' :: 't' :: 'p' :: fs ∨ q = 'w' :: 'w' :: 'w' :: fs)

/-- The minimal kernel of a URL match: the literal plus one non-space
follower. -/
def IsUrlMinMatch (q : List Char) : Prop :=
  ∃ f, isSpaceChar f = false ∧ (q = ['h', 't', 't', 'p', f] ∨ q = ['w', 'w', 'w', f])

/-- A full match of the email regex `\S+@\S+`. -/
def IsEmailMatch (q : List Char) : Prop :=
  ∃ a b, a ≠ [] ∧ b ≠ [] ∧ (∀ c ∈ a, isSpaceChar c = false) ∧
    (∀ c ∈ b, isSpaceChar c = false) ∧ q = a ++ '@' :: b

/-- The minimal kernel `\S@\S` of an email match. -/
def IsEmailMinMatch (q : List Char) : Prop :=
  ∃ x f, isSpaceChar x = false ∧ isSpaceChar f = false ∧ q = [x, '@', f]

/-- `s` contains a substring matching the URL pattern. -/
def HasUrlMatch (s : List Char) : Prop := ∃ q, IsUrlMatch q ∧ q <:+: s

/-- `s` contains a substring matching the email pattern. -/
def HasEmailMatch (s : List Char) : Prop := ∃ q, IsEmailMatch q ∧ q <:+: s

/-- `s` contains a URL-match kernel. -/
def HasUrlMin (s : List Char) : Prop := ∃ q, IsUrlMinMatch q ∧ q <:+: s

/-- `s` contains an email-match kernel. -/
def HasEmailMin (s : List Char) : Prop := ∃ q, IsEmailMinMatch q ∧ q <:+: s

theorem hasUrlMatch_iff_min {s : List Char} : HasUrlMatch s ↔ HasUrlMin s := by
  constructor
  · rintro ⟨q, ⟨fs, hne, hns, hq | hq⟩, hinf⟩ <;> subst hq
    · obtain ⟨f, fs', rfl⟩ : ∃ f fs', fs = f :: fs' := by
        cases fs with
        | nil => exact absurd rfl hne
        | cons f fs' => exact ⟨f, fs', rfl⟩
      refine ⟨['h', 't', 't', 'p', f], ⟨f, hns f (by simp), Or.inl rfl⟩, ?_⟩
      exact List.IsInfix.trans ⟨[], fs', rfl⟩ hinf
    · obtain ⟨f, fs', rfl⟩ : ∃ f fs', fs = f :: fs' := by
        cases fs with
        | nil => exact absurd rfl hne
        | cons f fs' => exact ⟨f, fs', rfl⟩
      refine ⟨['w', 'w', 'w', f], ⟨f, hns f (by simp), Or.inr rfl⟩, ?_⟩
      exact List.IsInfix.trans ⟨[], fs', rfl⟩ hinf
  · rintro ⟨q, ⟨f, hf, hq | hq⟩, hinf⟩ <;> subst hq
    · exact ⟨_, ⟨[f], by simp, by simpa using hf, Or.inl rfl⟩, hinf⟩
    · exact ⟨_, ⟨[f], by simp, by simpa using hf, Or.inr rfl⟩, hinf⟩

theorem hasEmailMatch_iff_min {s : List Char} : HasEmailMatch s ↔ HasEmailMin s := by
  constructor
  · rintro ⟨q, ⟨a, b, hane, hbne, hans, hbns, hq⟩, hinf⟩
    subst hq
    obtain ⟨a', x, rfl⟩ : ∃ a' x, a = a' ++ [x] := by
      rcases List.eq_nil_or_concat a with h | ⟨a', x, h⟩
      · exact absurd h hane
      · exact ⟨a', x, by simpa [List.concat_eq_append] using h⟩
    obtain ⟨f, b', rfl⟩ : ∃ f b', b = f :: b' := by
      cases b with
      | nil => exact absurd rfl hbne
      | cons f b' => exact ⟨f, b', rfl⟩
    refine ⟨[x, '@', f], ⟨x, f, hans x (by simp), hbns f (by simp), rfl⟩, ?_⟩
    refine List.IsInfix.trans ⟨a', b', ?_⟩ hinf
    simp
  · rintro ⟨q, ⟨x, f, hx, hf, hq⟩, hinf⟩
    subst hq
    exact ⟨_, ⟨[x], [f], by simp, by simp, by simpa using hx, by simpa using hf, rfl⟩, hinf⟩

theorem urlMin_wf {q : List Char} (h : IsUrlMinMatch q) :
    q ≠ [] ∧ ∀ c ∈ q, isSpaceChar c = false := by
  obtain ⟨f, hf, hq | hq⟩ := h <;> subst hq <;>
    refine ⟨by simp, ?_⟩ <;> intro c hc <;> simp at hc <;>
    rcases hc with rfl | rfl | rfl | rfl | rfl <;> first | decide | exact hf

theorem emailMin_wf {q : List Char} (h : IsEmailMinMatch q) :
    q ≠ [] ∧ ∀ c ∈ q, isSpaceChar c = false := by
  obtain ⟨x, f, hx, hf, hq⟩ := h
  subst hq
  refine ⟨by simp, ?_⟩
  intro c hc
  simp at hc
  rcases hc with rfl | rfl | rfl
  · exact hx
  · decide
  · exact hf

/-! ### Head-match characterisations of the scanners -/

theorem urlHead_witness {s : List Char} (h : urlHead s = true) :
    ∃ q, IsUrlMinMatch q ∧ q <+: s := by
  unfold urlHead at h
  split at h
  · rename_i f rest
    exact ⟨['h', 't', 't', 'p', f], ⟨f, by simpa using h, Or.inl rfl⟩, ⟨rest, rfl⟩⟩
  · rename_i f rest
    exact ⟨['w', 'w', 'w', f], ⟨f, by simpa using h, Or.inr rfl⟩, ⟨rest, rfl⟩⟩
  · exact absurd h (by simp)

theorem urlHead_of_min (q : List Char) (hq : IsUrlMinMatch q) {s : List Char}
    (hpre : q <+: s) : urlHead s = true := by
  obtain ⟨f, hf, h | h⟩ := hq <;> subst h <;> obtain ⟨t, rfl⟩ := hpre <;>
    simp [urlHead, hf]

theorem urlHead_head_nonspace {c : Char} {t : List Char} (h : urlHead (c :: t) = true) :
    isSpaceChar c = false := by
  obtain ⟨q, hq, hpre⟩ := urlHead_witness h
  obtain ⟨f, hf, h' | h'⟩ := hq <;> subst h' <;>
    obtain ⟨u, hu⟩ := hpre <;> simp at hu <;> rw [← hu.1] <;> decide

theorem emailHead_head_nonspace {c : Char} {t : List Char} (h : emailHead (c :: t) = true) :
    isSpaceChar c = false := by
  simp [emailHead] at h
  exact h.1

theorem emailHead_of_min (q : List Char) (hq : IsEmailMinMatch q) {s : List Char}
    (hpre : q <+: s) : emailHead s = true := by
  obtain ⟨x, f, hx, hf, rfl⟩ := hq
  obtain ⟨t, rfl⟩ := hpre
  have hsp : ¬ (isSpaceChar '@' = true) := by decide
  have hcond : (('@' = '@' : Bool) && !isSpaceChar f) = true := by simp [hf]
  have h1 : atFollower ('@' :: f :: t) = true := by
    rw [atFollower, if_neg hsp, if_pos hcond]
  simp [emailHead, hx, h1]

theorem emailHead_min_within :
    ∀ (u : List Char) (c : Char), emailHead (c :: u) = true →
      ∃ q, IsEmailMinMatch q ∧ q <:+: (c :: u) := by
  intro u
  induction u with
  | nil => intro c h; simp [emailHead, atFollower] at h
  | cons a u' ih =>
    intro c h
    simp only [emailHead, Bool.and_eq_true, Bool.not_eq_true'] at h
    obtain ⟨hc, haf⟩ := h
    cases u' with
    | nil => simp [atFollower] at haf
    | cons b t =>
      by_cases hsa : isSpaceChar a = true
      · simp [atFollower, hsa] at haf
      · by_cases hat : a = '@' ∧ isSpaceChar b = false
        · obtain ⟨ha, hb⟩ := hat
          subst ha
          exact ⟨[c, '@', b], ⟨c, b, hc, hb, rfl⟩, ⟨[], t, rfl⟩⟩
        · have hcond : ¬ ((a = '@' : Bool) && !isSpaceChar b) = true := by
            simp only [Bool.and_eq_true, decide_eq_true_eq, Bool.not_eq_true']
            exact hat
          have haf' : atFollower (b :: t) = true := by
            rw [atFollower, if_neg hsa, if_neg hcond] at haf
            exact haf
          have hea : emailHead (a :: b :: t) = true := by
            simp only [emailHead, Bool.and_eq_true, Bool.not_eq_true']
            exact ⟨by simpa using hsa, haf'⟩
          obtain ⟨q, hq, hinf⟩ := ih a hea
          exact ⟨q, hq, hinf.trans (List.infix_cons (List.infix_refl _))⟩

/-- The Boolean URL search (`re.search` flavour of the URL pattern). -/
def hasUrlScan : List Char → Bool
  | [] => false
  | c :: r => urlHead (c :: r) || hasUrlScan r

/-- `re.search(r'\S+@\S+', s)`: does an email match start anywhere? -/
def hasEmailSearch : List Char → Bool
  | [] => false
  | c :: r => emailHead (c :: r) || hasEmailSearch r

theorem hasUrlScan_iff : ∀ s : List Char, hasUrlScan s = true ↔ HasUrlMin s := by
  intro s
  induction s with
  | nil =>
    constructor
    · intro h; simp [hasUrlScan] at h
    · rintro ⟨q, hq, hinf⟩
      rw [List.infix_nil] at hinf
      exact absurd hinf (urlMin_wf hq).1
  | cons c r ih =>
    simp only [hasUrlScan, Bool.or_eq_true, ih]
    constructor
    · rintro (h | ⟨q, hq, hinf⟩)
      · obtain ⟨q, hq, hpre⟩ := urlHead_witness h
        exact ⟨q, hq, hpre.isInfix⟩
      · exact ⟨q, hq, hinf.trans (List.infix_cons (List.infix_refl _))⟩
    · rintro ⟨q, hq, hinf⟩
      rw [List.infix_cons_iff] at hinf
      rcases hinf with hpre | hinf
      · exact Or.inl (urlHead_of_min q hq hpre)
      · exact Or.inr ⟨q, hq, hinf⟩

theorem hasEmailSearch_iff : ∀ s : List Char, hasEmailSearch s = true ↔ HasEmailMin s := by
  intro s
  induction s with
  | nil =>
    constructor
    · intro h; simp [hasEmailSearch] at h
    · rintro ⟨q, hq, hinf⟩
      rw [List.infix_nil] at hinf
      exact absurd hinf (emailMin_wf hq).1
  | cons c r ih =>
    simp only [hasEmailSearch, Bool.or_eq_true, ih]
    constructor
    · rintro (h | ⟨q, hq, hinf⟩)
      · exact emailHead_min_within r c h
      · exact ⟨q, hq, hinf.trans (List.infix_cons (List.infix_refl _))⟩
    · rintro ⟨q, hq, hinf⟩
      rw [List.infix_cons_iff] at hinf
      rcases hinf with hpre | hinf
      · exact Or.inl (emailHead_of_min q hq hpre)
      · exact Or.inr ⟨q, hq, hinf⟩

/-! ### Structural lemmas about the scanners -/

theorem dropWhile_head_not {α : Type} (p : α → Bool) :
    ∀ (l : List α) {b : α} {l' : List α}, List.dropWhile p l = b :: l' → p b = false := by
  intro l
  induction l with
  | nil => intro b l' h; simp [List.dropWhile] at h
  | cons a t ih =>
    intro b l' h
    by_cases hp : p a
    · rw [List.dropWhile_cons_of_pos hp] at h
      exact ih h
    · rw [List.dropWhile_cons_of_neg hp] at h
      cases h
      simpa using hp

theorem takeWhile_eq_self_of_all {p : Char → Bool} :
    ∀ l : List Char, (∀ c ∈ l, p c = true) → List.takeWhile p l = l := by
  intro l
  induction l with
  | nil => simp
  | cons a t ih =>
    intro h
    rw [List.takeWhile_cons_of_pos (h a (by simp))]
    rw [ih fun c hc => h c (by simp [hc])]

theorem takeWhile_append_of_all {p : Char → Bool} :
    ∀ (w : List Char) {b : Char} (X : List Char), (∀ c ∈ w, p c = true) → p b = false →
      List.takeWhile p (w ++ b :: X) = w := by
  intro w
  induction w with
  | nil =>
    intro b X _ hb
    rw [List.nil_append, List.takeWhile_cons_of_neg (by simp [hb])]
  | cons a t ih =>
    intro b X h hb
    rw [List.cons_append, List.takeWhile_cons_of_pos (h a (by simp))]
    rw [ih X (fun c hc => h c (by simp [hc])) hb]

theorem dropWhile_append_of_all {p : Char → Bool} :
    ∀ (w : List Char) {b : Char} (X : List Char), (∀ c ∈ w, p c = true) → p b = false →
      List.dropWhile p (w ++ b :: X) = b :: X := by
  intro w
  induction w with
  | nil =>
    intro b X _ hb
    rw [List.nil_append, List.dropWhile_cons_of_neg (by simp [hb])]
  | cons a t ih =>
    intro b X h hb
    rw [List.cons_append, List.dropWhile_cons_of_pos (h a (by simp))]
    exact ih X (fun c hc => h c (by simp [hc])) hb

/-- A non-space list that is a prefix of `u ++ ' ' :: X` is a prefix of `u`. -/
theorem nonspace_prefix_append_space :
    ∀ (u q X : List Char), (∀ c ∈ q, isSpaceChar c = false) → q <+: (u ++ ' ' :: X) →
      q <+: u := by
  intro u
  induction u with
  | nil =>
    intro q X hq hpre
    cases q with
    | nil => exact List.nil_prefix
    | cons e q' =>
      rw [List.nil_append, List.cons_prefix_cons] at hpre
      have := hq e (by simp)
      rw [hpre.1] at this
      simp [isSpaceChar] at this
  | cons a u' ih =>
    intro q X hq hpre
    cases q with
    | nil => exact List.nil_prefix
    | cons e q' =>
      rw [List.cons_append, List.cons_prefix_cons] at hpre
      exact List.cons_prefix_cons.mpr
        ⟨hpre.1, ih q' X (fun c hc => hq c (by simp [hc])) hpre.2⟩

/-- A nonempty non-space infix of `u ++ ' ' :: X` lies in `u` or in `X`. -/
theorem nonspace_infix_append_space :
    ∀ (u q X : List Char), q ≠ [] → (∀ c ∈ q, isSpaceChar c = false) →
      q <:+: (u ++ ' ' :: X) → q <:+: u ∨ q <:+: X := by
  intro u
  induction u with
  | nil =>
    intro q X hne hq hinf
    rw [List.nil_append, List.infix_cons_iff] at hinf
    rcases hinf with hpre | hinf
    · cases q with
      | nil => exact absurd rfl hne
      | cons e q' =>
        rw [List.cons_prefix_cons] at hpre
        have := hq e (by simp)
        rw [hpre.1] at this
        simp [isSpaceChar] at this
    · exact Or.inr hinf
  | cons a u' ih =>
    intro q X hne hq hinf
    rw [List.cons_append, List.infix_cons_iff] at hinf
    rcases hinf with hpre | hinf
    · left
      have := nonspace_prefix_append_space (a :: u') q X hq (by simpa using hpre)
      exact this.isInfix
    · rcases ih q X hne hq hinf with h | h
      · exact Or.inl (h.trans (List.infix_cons (List.infix_refl _)))
      · exact Or.inr h

/-- Non-space prefixes of `subUrl s` reflect to prefixes of `s`: a deleted
URL match always runs to the end of its non-space run, so the next output
character after a deletion is a space. -/
theorem subUrl_prefix_reflect :
    ∀ s q : List Char, (∀ c ∈ q, isSpaceChar c = false) → q <+: subUrl s → q <+: s := by
  intro s
  induction s using subUrl.induct with
  | case1 =>
    intro q hq hpre
    simpa [subUrl] using hpre
  | case2 c rest hguard ih =>
    intro q hq hpre
    simp only [subUrl, if_pos hguard] at hpre
    rcases hdrop : List.dropWhile (fun d => !isSpaceChar d) rest with _ | ⟨d, u⟩
    · rw [hdrop] at hpre
      simp only [subUrl] at hpre
      rw [List.prefix_nil] at hpre
      subst hpre
      exact List.nil_prefix
    · have hd : isSpaceChar d = true := by
        have := dropWhile_head_not (fun d => !isSpaceChar d) rest hdrop
        simpa using this
      rw [hdrop] at hpre
      have hg : ¬ urlHead (d :: u) = true := by
        intro hg
        rw [urlHead_head_nonspace hg] at hd
        exact Bool.false_ne_true hd
      simp only [subUrl, if_neg hg] at hpre
      cases q with
      | nil => exact List.nil_prefix
      | cons e q' =>
        rw [List.cons_prefix_cons] at hpre
        have := hq e (by simp)
        rw [hpre.1, hd] at this
        exact absurd this (by simp)
  | case3 c rest hguard ih =>
    intro q hq hpre
    simp only [subUrl, if_neg hguard] at hpre
    cases q with
    | nil => exact List.nil_prefix
    | cons e q' =>
      rw [List.cons_prefix_cons] at hpre
      exact List.cons_prefix_cons.mpr
        ⟨hpre.1, ih q' (fun c hc => hq c (by simp [hc])) hpre.2⟩

/-- Non-space prefixes of `subEmail s` reflect to prefixes of `s`. -/
theorem subEmail_prefix_reflect :
    ∀ s q : List Char, (∀ c ∈ q, isSpaceChar c = false) → q <+: subEmail s → q <+: s := by
  intro s
  induction s using subEmail.induct with
  | case1 =>
    intro q hq hpre
    simpa [subEmail] using hpre
  | case2 c rest hguard ih =>
    intro q hq hpre
    simp only [subEmail, if_pos hguard] at hpre
    rcases hdrop : List.dropWhile (fun d => !isSpaceChar d) rest with _ | ⟨d, u⟩
    · rw [hdrop] at hpre
      simp only [subEmail] at hpre
      rw [List.prefix_nil] at hpre
      subst hpre
      exact List.nil_prefix
    · have hd : isSpaceChar d = true := by
        have := dropWhile_head_not (fun d => !isSpaceChar d) rest hdrop
        simpa using this
      rw [hdrop] at hpre
      have hg : ¬ emailHead (d :: u) = true := by
        intro hg
        rw [emailHead_head_nonspace hg] at hd
        exact Bool.false_ne_true hd
      simp only [subEmail, if_neg hg] at hpre
      cases q with
      | nil => exact List.nil_prefix
      | cons e q' =>
        rw [List.cons_prefix_cons] at hpre
        have := hq e (by simp)
        rw [hpre.1, hd] at this
        exact absurd this (by simp)
  | case3 c rest hguard ih =>
    intro q hq hpre
    simp only [subEmail, if_neg hguard] at hpre
    cases q with
    | nil => exact List.nil_prefix
    | cons e q' =>
      rw [List.cons_prefix_cons] at hpre
      exact List.cons_prefix_cons.mpr
        ⟨hpre.1, ih q' (fun c hc => hq c (by simp [hc])) hpre.2⟩

/-- Non-space prefixes of `replaceSeq pat (' ' :: r') s` reflect to
prefixes of `s`: every replacement block starts with a space. -/
theorem replaceSeq_prefix_reflect (pat r' : List Char) :
    ∀ s q : List Char, (∀ c ∈ q, isSpaceChar c = false) →
      q <+: replaceSeq pat (' ' :: r') s → q <+: s := by
  intro s
  induction s using replaceSeq.induct pat (' ' :: r') with
  | case1 =>
    intro q hq hpre
    simpa [replaceSeq] using hpre
  | case2 c rest hguard ih =>
    intro q hq hpre
    simp only [replaceSeq, if_pos hguard] at hpre
    cases q with
    | nil => exact List.nil_prefix
    | cons e q' =>
      rw [List.cons_append, List.cons_prefix_cons] at hpre
      have := hq e (by simp)
      rw [hpre.1] at this
      simp [isSpaceChar] at this
  | case3 c rest hguard ih =>
    intro q hq hpre
    simp only [replaceSeq, if_neg hguard] at hpre
    cases q with
    | nil => exact List.nil_prefix
    | cons e q' =>
      rw [List.cons_prefix_cons] at hpre
      exact List.cons_prefix_cons.mpr
        ⟨hpre.1, ih q' (fun c hc => hq c (by simp [hc])) hpre.2⟩

theorem findGt_sublist : ∀ {l r : List Char}, findGt l = some r → List.Sublist r l := by
  intro l
  induction l with
  | nil => intro r h; simp [findGt] at h
  | cons c rest ih =>
    intro r h
    by_cases hgt : c = '>'
    · simp [findGt, hgt] at h
      subst h
      exact List.sublist_cons_self _ _
    · by_cases hnl : c = '\n'
      · simp [findGt, hgt, hnl] at h
      · simp [findGt, hgt, hnl] at h
        exact (ih h).trans (List.sublist_cons_self _ _)

theorem subUrl_sublist : ∀ s : List Char, List.Sublist (subUrl s) s := by
  intro s
  induction s using subUrl.induct with
  | case1 => simp [subUrl]
  | case2 c rest hguard ih =>
    simp only [subUrl, if_pos hguard]
    exact ih.trans ((List.dropWhile_suffix _).sublist.trans (List.sublist_cons_self c rest))
  | case3 c rest hguard ih =>
    simp only [subUrl, if_neg hguard]
    exact ih.cons₂ c

theorem subEmail_sublist : ∀ s : List Char, List.Sublist (subEmail s) s := by
  intro s
  induction s using subEmail.induct with
  | case1 => simp [subEmail]
  | case2 c rest hguard ih =>
    simp only [subEmail, if_pos hguard]
    exact ih.trans ((List.dropWhile_suffix _).sublist.trans (List.sublist_cons_self c rest))
  | case3 c rest hguard ih =>
    simp only [subEmail, if_neg hguard]
    exact ih.cons₂ c

theorem subHtml_lt_some {rest rem : List Char} (hfind : findGt rest = some rem) :
    subHtml ('<' :: rest) = subHtml rem := by
  simp only [subHtml, if_true]
  split
  · rename_i rem' hfind'
    rw [hfind] at hfind'
    cases hfind'
    rfl
  · rename_i hfind'
    rw [hfind] at hfind'
    cases hfind'

theorem subHtml_lt_none {rest : List Char} (hfind : findGt rest = none) :
    subHtml ('<' :: rest) = '<' :: subHtml rest := by
  simp only [subHtml, if_true]
  split
  · rename_i rem' hfind'
    rw [hfind] at hfind'
    cases hfind'
  · rfl

theorem subHtml_ne_lt {c : Char} {rest : List Char} (h : ¬ c = '<') :
    subHtml (c :: rest) = c :: subHtml rest := by
  rw [subHtml, if_neg h]

theorem subHtml_sublist : ∀ s : List Char, List.Sublist (subHtml s) s := by
  intro s
  induction s using subHtml.induct with
  | case1 => simp [subHtml]
  | case2 rest rem hfind ih =>
    rw [subHtml_lt_some hfind]
    exact ih.trans ((findGt_sublist hfind).trans (List.sublist_cons_self '<' rest))
  | case3 rest hfind ih =>
    rw [subHtml_lt_none hfind]
    exact ih.cons₂ '<'
  | case4 c rest hlt ih =>
    rw [subHtml_ne_lt hlt]
    exact ih.cons₂ c

theorem mem_replaceSeq (pat repl : List Char) :
    ∀ (s : List Char) (c : Char), c ∈ replaceSeq pat repl s → c ∈ s ∨ c ∈ repl := by
  intro s
  induction s using replaceSeq.induct pat repl with
  | case1 => intro c h; simp [replaceSeq] at h
  | case2 a rest hguard ih =>
    intro c h
    simp only [replaceSeq, if_pos hguard, List.mem_append] at h
    rcases h with h | h
    · exact Or.inr h
    · rcases ih c h with h' | h'
      · exact Or.inl (List.mem_cons_of_mem a (List.drop_subset _ _ h'))
      · exact Or.inr h'
  | case3 a rest hguard ih =>
    intro c h
    simp only [replaceSeq, if_neg hguard, List.mem_cons] at h
    rcases h with rfl | h
    · exact Or.inl (by simp)
    · rcases ih c h with h' | h'
      · exact Or.inl (List.mem_cons_of_mem a h')
      · exact Or.inr h'

/-! ### `pyWords` and `unwords` -/

theorem pyWords_wf :
    ∀ s w : List Char, w ∈ pyWords s → w ≠ [] ∧ ∀ c ∈ w, isSpaceChar c = false := by
  intro s
  induction s using pyWords.induct with
  | case1 => intro w h; simp [pyWords] at h
  | case2 c rest hguard ih =>
    intro w h
    simp only [pyWords, if_pos hguard] at h
    exact ih w h
  | case3 c rest hguard ih =>
    intro w h
    simp only [pyWords, if_neg hguard, List.mem_cons] at h
    rcases h with rfl | h
    · refine ⟨by simp, ?_⟩
      intro d hd
      rw [List.mem_cons] at hd
      rcases hd with rfl | hd
      · simpa using hguard
      · have := List.mem_takeWhile_imp hd
        simpa using this
    · exact ih w h

theorem mem_pyWords_within : ∀ s w : List Char, w ∈ pyWords s → w <:+: s := by
  intro s
  induction s using pyWords.induct with
  | case1 => intro w h; simp [pyWords] at h
  | case2 c rest hguard ih =>
    intro w h
    simp only [pyWords, if_pos hguard] at h
    exact (ih w h).trans (List.infix_cons (List.infix_refl _))
  | case3 c rest hguard ih =>
    intro w h
    simp only [pyWords, if_neg hguard, List.mem_cons] at h
    rcases h with rfl | h
    · exact (List.cons_prefix_cons.mpr ⟨rfl, List.takeWhile_prefix _⟩).isInfix
    · exact ((ih w h).trans (List.dropWhile_suffix _).isInfix).trans
        (List.infix_cons (List.infix_refl _))

theorem pyWords_of_nonspace (w : List Char) (hne : w ≠ [])
    (hns : ∀ c ∈ w, isSpaceChar c = false) : pyWords w = [w] := by
  cases w with
  | nil => exact absurd rfl hne
  | cons c w' =>
    have hc : ¬ isSpaceChar c = true := by simp [hns c (by simp)]
    have htake : List.takeWhile (fun d => !isSpaceChar d) w' = w' :=
      takeWhile_eq_self_of_all w' (fun d hd => by simp [hns d (by simp [hd])])
    have hdropnil : List.dropWhile (fun d => !isSpaceChar d) w' = [] := by
      rw [List.dropWhile_eq_nil_iff]
      intro d hd
      simp [hns d (by simp [hd])]
    simp only [pyWords, if_neg hc, htake, hdropnil]

theorem pyWords_unwords :
    ∀ ws : List (List Char),
      (∀ w ∈ ws, w ≠ [] ∧ ∀ c ∈ w, isSpaceChar c = false) →
      pyWords (unwords ws) = ws := by
  intro ws
  induction ws with
  | nil => intro h; simp [unwords, pyWords]
  | cons w ws' ih =>
    intro h
    cases ws' with
    | nil =>
      have hw := h w (by simp)
      simpa [unwords] using pyWords_of_nonspace w hw.1 hw.2
    | cons w₂ ws'' =>
      have hw := h w (by simp)
      obtain ⟨c, w', rfl⟩ : ∃ c w', w = c :: w' := by
        cases w with
        | nil => exact absurd rfl hw.1
        | cons c w' => exact ⟨c, w', rfl⟩
      have hc : ¬ isSpaceChar c = true := by simp [hw.2 c (by simp)]
      have hns' : ∀ d ∈ w', (fun d => !isSpaceChar d) d = true := by
        intro d hd
        simp [hw.2 d (by simp [hd])]
      have hsp : (fun d => !isSpaceChar d) ' ' = false := by decide
      show pyWords (c :: (w' ++ ' ' :: unwords (w₂ :: ws''))) = (c :: w') :: w₂ :: ws''
      simp only [pyWords, if_neg hc, takeWhile_append_of_all w' _ hns' hsp,
        dropWhile_append_of_all w' _ hns' hsp]
      have hspace : isSpaceChar ' ' = true := by decide
      simp only [pyWords, if_pos hspace]
      rw [ih fun v hv => h v (by simp [hv])]

theorem collapseWs_idem (s : List Char) : collapseWs (collapseWs s) = collapseWs s := by
  unfold collapseWs
  rw [pyWords_unwords (pyWords s) (fun w hw => pyWords_wf s w hw)]

/-! ### Generic containment of non-space witnesses through the pipeline -/

/-- `s` has an infix satisfying `P`. -/
def HasPat (P : List Char → Prop) (s : List Char) : Prop := ∃ q, P q ∧ q <:+: s

theorem hasPat_mono (P : List Char → Prop) {t s : List Char} (h : HasPat P t)
    (hts : t <:+: s) : HasPat P s := by
  obtain ⟨q, hq, hinf⟩ := h
  exact ⟨q, hq, hinf.trans hts⟩

theorem not_hasPat_nil (P : List Char → Prop)
    (hwf : ∀ q, P q → q ≠ [] ∧ ∀ c ∈ q, isSpaceChar c = false) : ¬ HasPat P [] := by
  rintro ⟨q, hq, hinf⟩
  rw [List.infix_nil] at hinf
  exact (hwf q hq).1 hinf

/-- No `P`-infix appears in a space-joined word list whose words are
`P`-free (a non-space witness cannot cross a space). -/
theorem not_hasPat_unwords (P : List Char → Prop)
    (hwf : ∀ q, P q → q ≠ [] ∧ ∀ c ∈ q, isSpaceChar c = false) :
    ∀ ws : List (List Char), (∀ w ∈ ws, ¬ HasPat P w) → ¬ HasPat P (unwords ws) := by
  intro ws
  induction ws with
  | nil => intro _; simpa [unwords] using not_hasPat_nil P hwf
  | cons w ws' ih =>
    intro hws
    cases ws' with
    | nil => simpa [unwords] using hws w (by simp)
    | cons w₂ ws'' =>
      rintro ⟨q, hq, hinf⟩
      rcases nonspace_infix_append_space w q (unwords (w₂ :: ws'')) (hwf q hq).1
          (hwf q hq).2 hinf with h | h
      · exact hws w (by simp) ⟨q, hq, h⟩
      · exact ih (fun v hv => hws v (by simp [hv])) ⟨q, hq, h⟩

/-- Collapsing whitespace preserves the absence of non-space witnesses. -/
theorem collapseWs_preserves (P : List Char → Prop)
    (hwf : ∀ q, P q → q ≠ [] ∧ ∀ c ∈ q, isSpaceChar c = false)
    {s : List Char} (hs : ¬ HasPat P s) : ¬ HasPat P (collapseWs s) := by
  unfold collapseWs
  refine not_hasPat_unwords P hwf (pyWords s) ?_
  intro w hw hcon
  exact hs (hasPat_mono P hcon (mem_pyWords_within s w hw))

/-- A replacement pass whose replacement text is space-delimited and
`P`-free preserves the absence of non-space witnesses. -/
theorem replaceSeq_preserves (P : List Char → Prop)
    (hwf : ∀ q, P q → q ≠ [] ∧ ∀ c ∈ q, isSpaceChar c = false)
    (pat r'' : List Char) (hrepl : ¬ HasPat P (' ' :: (r'' ++ [' ']))) :
    ∀ s : List Char, ¬ HasPat P s → ¬ HasPat P (replaceSeq pat (' ' :: (r'' ++ [' '])) s) := by
  intro s
  induction s using replaceSeq.induct pat (' ' :: (r'' ++ [' '])) with
  | case1 =>
    intro _
    simpa [replaceSeq] using not_hasPat_nil P hwf
  | case2 c rest hguard ih =>
    intro hs
    simp only [replaceSeq, if_pos hguard]
    have hrec := ih (fun hcon => hs (hasPat_mono P hcon
      ((List.drop_suffix _ _).isInfix.trans (List.infix_cons (List.infix_refl _)))))
    rintro ⟨q, hq, hinf⟩
    rw [List.cons_append, List.infix_cons_iff] at hinf
    rcases hinf with hpre | hinf
    · cases q with
      | nil => exact (hwf [] hq).1 rfl
      | cons e q' =>
        rw [List.cons_prefix_cons] at hpre
        have := (hwf _ hq).2 e (by simp)
        rw [hpre.1] at this
        simp [isSpaceChar] at this
    · rw [List.append_assoc, List.singleton_append] at hinf
      rcases nonspace_infix_append_space r'' q _ (hwf q hq).1 (hwf q hq).2 hinf with h | h
      · exact hrepl ⟨q, hq, (h.trans (List.prefix_append r'' [' ']).isInfix).trans
          (List.infix_cons (List.infix_refl _))⟩
      · exact hrec ⟨q, hq, h⟩
  | case3 c rest hguard ih =>
    intro hs
    simp only [replaceSeq, if_neg hguard]
    have hrest : ¬ HasPat P rest := fun hcon =>
      hs (hasPat_mono P hcon (List.infix_cons (List.infix_refl _)))
    rintro ⟨q, hq, hinf⟩
    rw [List.infix_cons_iff] at hinf
    rcases hinf with hpre | hinf
    · cases q with
      | nil => exact (hwf [] hq).1 rfl
      | cons e q' =>
        rw [List.cons_prefix_cons] at hpre
        have hq' : q' <+: rest := replaceSeq_prefix_reflect pat (r'' ++ [' ']) rest q'
          (fun c hc => (hwf _ hq).2 c (by simp [hc])) hpre.2
        exact hs ⟨e :: q', hq,
          (List.cons_prefix_cons.mpr ⟨hpre.1, hq'⟩).isInfix⟩
    · exact ih hrest ⟨q, hq, hinf⟩

/-! ### The scanners produce pattern-free output -/

theorem subUrl_no_url : ∀ s : List Char, ¬ HasUrlMin (subUrl s) := by
  intro s
  induction s using subUrl.induct with
  | case1 =>
    simpa [subUrl] using not_hasPat_nil IsUrlMinMatch (fun q hq => urlMin_wf hq)
  | case2 c rest hguard ih =>
    simpa [subUrl, if_pos hguard] using ih
  | case3 c rest hguard ih =>
    simp only [subUrl, if_neg hguard]
    rintro ⟨q, hq, hinf⟩
    rw [List.infix_cons_iff] at hinf
    rcases hinf with hpre | hinf
    · cases q with
      | nil => exact (urlMin_wf hq).1 rfl
      | cons e q' =>
        rw [List.cons_prefix_cons] at hpre
        have hq' : q' <+: rest := subUrl_prefix_reflect rest q'
          (fun c hc => (urlMin_wf hq).2 c (by simp [hc])) hpre.2
        exact hguard (urlHead_of_min _ hq (List.cons_prefix_cons.mpr ⟨hpre.1, hq'⟩))
    · exact ih ⟨q, hq, hinf⟩

theorem subEmail_no_email : ∀ s : List Char, ¬ HasEmailMin (subEmail s) := by
  intro s
  induction s using subEmail.induct with
  | case1 =>
    simpa [subEmail] using not_hasPat_nil IsEmailMinMatch (fun q hq => emailMin_wf hq)
  | case2 c rest hguard ih =>
    simpa [subEmail, if_pos hguard] using ih
  | case3 c rest hguard ih =>
    simp only [subEmail, if_neg hguard]
    rintro ⟨q, hq, hinf⟩
    rw [List.infix_cons_iff] at hinf
    rcases hinf with hpre | hinf
    · cases q with
      | nil => exact (emailMin_wf hq).1 rfl
      | cons e q' =>
        rw [List.cons_prefix_cons] at hpre
        have hq' : q' <+: rest := subEmail_prefix_reflect rest q'
          (fun c hc => (emailMin_wf hq).2 c (by simp [hc])) hpre.2
        exact hguard (emailHead_of_min _ hq (List.cons_prefix_cons.mpr ⟨hpre.1, hq'⟩))
    · exact ih ⟨q, hq, hinf⟩

theorem subEmail_preserves_no_url :
    ∀ s : List Char, ¬ HasUrlMin s → ¬ HasUrlMin (subEmail s) := by
  intro s
  induction s using subEmail.induct with
  | case1 =>
    intro _
    simpa [subEmail] using not_hasPat_nil IsUrlMinMatch (fun q hq => urlMin_wf hq)
  | case2 c rest hguard ih =>
    intro hs
    simp only [subEmail, if_pos hguard]
    exact ih fun hcon => hs (hasPat_mono _ hcon
      ((List.dropWhile_suffix _).isInfix.trans (List.infix_cons (List.infix_refl _))))
  | case3 c rest hguard ih =>
    intro hs
    simp only [subEmail, if_neg hguard]
    have hrest : ¬ HasUrlMin rest := fun hcon =>
      hs (hasPat_mono _ hcon (List.infix_cons (List.infix_refl _)))
    rintro ⟨q, hq, hinf⟩
    rw [List.infix_cons_iff] at hinf
    rcases hinf with hpre | hinf
    · cases q with
      | nil => exact (urlMin_wf hq).1 rfl
      | cons e q' =>
        rw [List.cons_prefix_cons] at hpre
        have hq' : q' <+: rest := subEmail_prefix_reflect rest q'
          (fun c hc => (urlMin_wf hq).2 c (by simp [hc])) hpre.2
        exact hs ⟨e :: q', hq, (List.cons_prefix_cons.mpr ⟨hpre.1, hq'⟩).isInfix⟩
    · exact ih hrest ⟨q, hq, hinf⟩

/-! ### Fixed-point lemmas: pattern-free input passes through unchanged -/

theorem subUrl_eq_self : ∀ s : List Char, ¬ HasUrlMin s → subUrl s = s := by
  intro s
  induction s using subUrl.induct with
  | case1 => intro _; simp [subUrl]
  | case2 c rest hguard ih =>
    intro hs
    obtain ⟨q, hq, hpre⟩ := urlHead_witness hguard
    exact absurd ⟨q, hq, hpre.isInfix⟩ hs
  | case3 c rest hguard ih =>
    intro hs
    simp only [subUrl, if_neg hguard]
    rw [ih fun hcon => hs (hasPat_mono _ hcon (List.infix_cons (List.infix_refl _)))]

theorem subEmail_eq_self : ∀ s : List Char, ¬ HasEmailMin s → subEmail s = s := by
  intro s
  induction s using subEmail.induct with
  | case1 => intro _; simp [subEmail]
  | case2 c rest hguard ih =>
    intro hs
    obtain ⟨q, hq, hinf⟩ := emailHead_min_within rest c hguard
    exact absurd ⟨q, hq, hinf⟩ hs
  | case3 c rest hguard ih =>
    intro hs
    simp only [subEmail, if_neg hguard]
    rw [ih fun hcon => hs (hasPat_mono _ hcon (List.infix_cons (List.infix_refl _)))]

theorem subHtml_eq_self : ∀ s : List Char, '<' ∉ s → subHtml s = s := by
  intro s
  induction s using subHtml.induct with
  | case1 => intro _; simp [subHtml]
  | case2 rest rem hfind ih => intro h; exact absurd (by simp) h
  | case3 rest hfind ih => intro h; exact absurd (by simp) h
  | case4 c rest hlt ih =>
    intro h
    rw [subHtml_ne_lt hlt, ih fun hc => h (List.mem_cons_of_mem c hc)]

theorem replaceSeq_eq_self (pat repl : List Char) :
    ∀ s : List Char, ¬ (pat <:+: s) → replaceSeq pat repl s = s := by
  intro s
  induction s using replaceSeq.induct pat repl with
  | case1 => intro _; simp [replaceSeq]
  | case2 c rest hguard ih =>
    intro hs
    exact absurd (List.isPrefixOf_iff_prefix.mp hguard.2).isInfix hs
  | case3 c rest hguard ih =>
    intro hs
    simp only [replaceSeq, if_neg hguard]
    rw [ih fun hcon => hs (hcon.trans (List.infix_cons (List.infix_refl _)))]

/-! ### A replacement pass eliminates its own pattern -/

/-- Prefixes drawn from the pattern's characters reflect through a
replacement pass whose replacement shares no character with the pattern. -/
theorem replaceSeq_prefix_reflect_disjoint (pat repl : List Char) (hne : repl ≠ [])
    (hd : ∀ c ∈ repl, c ∉ pat) :
    ∀ s p : List Char, (∀ c ∈ p, c ∈ pat) → p <+: replaceSeq pat repl s → p <+: s := by
  intro s
  induction s using replaceSeq.induct pat repl with
  | case1 =>
    intro p hp hpre
    simpa [replaceSeq] using hpre
  | case2 c rest hguard ih =>
    intro p hp hpre
    simp only [replaceSeq, if_pos hguard] at hpre
    cases p with
    | nil => exact List.nil_prefix
    | cons e p' =>
      obtain ⟨d, r', rfl⟩ : ∃ d r', repl = d :: r' := by
        cases repl with
        | nil => exact absurd rfl hne
        | cons d r' => exact ⟨d, r', rfl⟩
      rw [List.cons_append, List.cons_prefix_cons] at hpre
      exact absurd (hp e (by simp)) (hpre.1 ▸ hd d (by simp))
  | case3 c rest hguard ih =>
    intro p hp hpre
    simp only [replaceSeq, if_neg hguard] at hpre
    cases p with
    | nil => exact List.nil_prefix
    | cons e p' =>
      rw [List.cons_prefix_cons] at hpre
      exact List.cons_prefix_cons.mpr
        ⟨hpre.1, ih p' (fun c hc => hp c (by simp [hc])) hpre.2⟩

theorem not_infix_append_disjoint (pat : List Char) (hne : pat ≠ []) :
    ∀ (A X : List Char), (∀ c ∈ A, c ∉ pat) → ¬ (pat <:+: X) → ¬ (pat <:+: (A ++ X)) := by
  intro A
  induction A with
  | nil => intro X _ hX; simpa using hX
  | cons d A' ih =>
    intro X hA hX hinf
    rw [List.cons_append, List.infix_cons_iff] at hinf
    rcases hinf with hpre | hinf
    · cases pat with
      | nil => exact hne rfl
      | cons e p' =>
        rw [List.cons_prefix_cons] at hpre
        exact hA d (by simp) (hpre.1 ▸ List.mem_cons_self e p')
    · exact ih X (fun c hc => hA c (by simp [hc])) hX hinf

/-- After `str.replace(pat, repl)` with `repl` sharing no character with
`pat`, the pattern no longer occurs. -/
theorem replaceSeq_no_occur (pat repl : List Char) (hne : pat ≠ []) (hrne : repl ≠ [])
    (hd : ∀ c ∈ repl, c ∉ pat) :
    ∀ s : List Char, ¬ (pat <:+: replaceSeq pat repl s) := by
  intro s
  induction s using replaceSeq.induct pat repl with
  | case1 =>
    intro hinf
    rw [replaceSeq, List.infix_nil] at hinf
    exact hne hinf
  | case2 c rest hguard ih =>
    simp only [replaceSeq, if_pos hguard]
    exact not_infix_append_disjoint pat hne repl _ hd ih
  | case3 c rest hguard ih =>
    simp only [replaceSeq, if_neg hguard]
    intro hinf
    rw [List.infix_cons_iff] at hinf
    rcases hinf with hpre | hinf
    · cases pat with
      | nil => exact hne rfl
      | cons e p' =>
        rw [List.cons_prefix_cons] at hpre
        have hp' : p' <+: rest := replaceSeq_prefix_reflect_disjoint (e :: p') repl hrne hd
          rest p' (fun c hc => by simp [hc]) hpre.2
        exact hguard ⟨hne, List.isPrefixOf_iff_prefix.mpr
          (List.cons_prefix_cons.mpr ⟨hpre.1, hp'⟩)⟩
    · exact ih hinf

/-! ### Character provenance through the pipeline -/

/-- Every character of the string is a `pyLower` fixed point. -/
def LowerFixed (s : List Char) : Prop := ∀ c ∈ s, pyLower c = c

theorem lowerFixed_map (s : List Char) : LowerFixed (s.map pyLower) := by
  intro c hc
  obtain ⟨d, _, rfl⟩ := List.mem_map.mp hc
  exact pyLower_idem d

theorem lowerFixed_of_sublist {s t : List Char} (h : List.Sublist t s) (hs : LowerFixed s) :
    LowerFixed t := fun c hc => hs c (h.subset hc)

theorem map_pyLower_of_fixed : ∀ s : List Char, LowerFixed s → s.map pyLower = s := by
  intro s
  induction s with
  | nil => intro _; simp
  | cons c t ih =>
    intro h
    rw [List.map_cons, h c (by simp), ih fun d hd => h d (by simp [hd])]

theorem mem_unwords : ∀ (ws : List (List Char)) (c : Char), c ∈ unwords ws →
    (∃ w ∈ ws, c ∈ w) ∨ c = ' ' := by
  intro ws
  induction ws with
  | nil => intro c hc; simp [unwords] at hc
  | cons w ws' ih =>
    intro c hc
    cases ws' with
    | nil => exact Or.inl ⟨w, by simp, by simpa [unwords] using hc⟩
    | cons w₂ ws'' =>
      rw [show unwords (w :: w₂ :: ws'') = w ++ ' ' :: unwords (w₂ :: ws'') from rfl,
        List.mem_append] at hc
      rcases hc with hc | hc
      · exact Or.inl ⟨w, by simp, hc⟩
      · rw [List.mem_cons] at hc
        rcases hc with rfl | hc
        · exact Or.inr rfl
        · rcases ih c hc with ⟨v, hv, hcv⟩ | h
          · exact Or.inl ⟨v, by simp [hv], hcv⟩
          · exact Or.inr h

theorem mem_collapseWs {s : List Char} {c : Char} (h : c ∈ collapseWs s) :
    c ∈ s ∨ c = ' ' := by
  rcases mem_unwords (pyWords s) c h with ⟨w, hw, hcw⟩ | h
  · exact Or.inl ((mem_pyWords_within s w hw).subset hcw)
  · exact Or.inr h

theorem lowerFixed_collapseWs {s : List Char} (hs : LowerFixed s) :
    LowerFixed (collapseWs s) := by
  intro c hc
  rcases mem_collapseWs hc with h | rfl
  · exact hs c h
  · decide

theorem lowerFixed_replaceSeq {pat repl s : List Char} (hs : LowerFixed s)
    (hr : LowerFixed repl) : LowerFixed (replaceSeq pat repl s) := by
  intro c hc
  rcases mem_replaceSeq pat repl s c hc with h | h
  · exact hs c h
  · exact hr c h

theorem noLt_map_pyLower {s : List Char} (h : '<' ∉ s) : '<' ∉ s.map pyLower := by
  intro hc
  obtain ⟨d, hd, hdc⟩ := List.mem_map.mp hc
  exact h (pyLower_eq_lt hdc ▸ hd)

theorem noLt_of_sublist {s t : List Char} (hsub : List.Sublist t s) (h : '<' ∉ s) :
    '<' ∉ t := fun hc => h (hsub.subset hc)

theorem noLt_replaceSeq {pat repl s : List Char} (hs : '<' ∉ s) (hr : '<' ∉ repl) :
    '<' ∉ replaceSeq pat repl s := by
  intro hc
  rcases mem_replaceSeq pat repl s '<' hc with h | h
  · exact hs h
  · exact hr h

theorem noLt_collapseWs {s : List Char} (hs : '<' ∉ s) : '<' ∉ collapseWs s := by
  intro hc
  rcases mem_collapseWs hc with h | h
  · exact hs h
  · exact absurd h (by decide)

/-! ### The cleaned string is pattern-free, lowercase-fixed and collapsed -/

theorem not_hasUrlMin_of_scan_false {l : List Char} (h : hasUrlScan l = false) :
    ¬ HasUrlMin l := fun hc => Bool.false_ne_true (h ▸ (hasUrlScan_iff l).mpr hc)

theorem not_hasEmailMin_of_scan_false {l : List Char} (h : hasEmailSearch l = false) :
    ¬ HasEmailMin l := fun hc => Bool.false_ne_true (h ▸ (hasEmailSearch_iff l).mpr hc)

theorem not_hasPat_eq_of_no_occur {pat l : List Char} (h : ¬ (pat <:+: l)) :
    ¬ HasPat (fun q => q = pat) l := by
  rintro ⟨q, rfl, hinf⟩
  exact h hinf

theorem eqPat_wf (pat : List Char) (h1 : pat ≠ [])
    (h2 : ∀ c ∈ pat, isSpaceChar c = false) :
    ∀ q, (fun q => q = pat) q → q ≠ [] ∧ ∀ c ∈ q, isSpaceChar c = false := by
  rintro q rfl
  exact ⟨h1, h2⟩

/-- The emoji pass preserves the absence of any non-space witness that
does not occur in the five replacement texts. -/
theorem emojiPass_preserves (P : List Char → Prop)
    (hwf : ∀ q, P q → q ≠ [] ∧ ∀ c ∈ q, isSpaceChar c = false)
    (h1 : ¬ HasPat P " love ".data) (h2 : ¬ HasPat P " like ".data)
    (h3 : ¬ HasPat P " dislike ".data) (h4 : ¬ HasPat P " happy ".data)
    (h5 : ¬ HasPat P " sad ".data) {s : List Char} (hs : ¬ HasPat P s) :
    ¬ HasPat P (emojiPass s) := by
  unfold emojiPass
  exact replaceSeq_preserves P hwf mojiSad "sad".data h5 _
    (replaceSeq_preserves P hwf mojiHappy "happy".data h4 _
      (replaceSeq_preserves P hwf mojiDislike "dislike".data h3 _
        (replaceSeq_preserves P hwf mojiLike "like".data h2 _
          (replaceSeq_preserves P hwf mojiHeart "love".data h1 _ hs))))

/-- After the emoji pass, none of the five mojibake patterns occurs. -/
theorem emojiPass_no_moji (s : List Char) :
    ¬ (mojiHeart <:+: emojiPass s) ∧ ¬ (mojiLike <:+: emojiPass s) ∧
    ¬ (mojiDislike <:+: emojiPass s) ∧ ¬ (mojiHappy <:+: emojiPass s) ∧
    ¬ (mojiSad <:+: emojiPass s) := by
  unfold emojiPass
  refine ⟨?_, ?_, ?_, ?_, ?_⟩
  · intro hinf
    refine replaceSeq_preserves (fun q => q = mojiHeart) (eqPat_wf _ (by decide) (by decide))
      mojiSad "sad".data (not_hasPat_eq_of_no_occur (by decide)) _
      (replaceSeq_preserves (fun q => q = mojiHeart) (eqPat_wf _ (by decide) (by decide))
        mojiHappy "happy".data (not_hasPat_eq_of_no_occur (by decide)) _
        (replaceSeq_preserves (fun q => q = mojiHeart) (eqPat_wf _ (by decide) (by decide))
          mojiDislike "dislike".data (not_hasPat_eq_of_no_occur (by decide)) _
          (replaceSeq_preserves (fun q => q = mojiHeart) (eqPat_wf _ (by decide) (by decide))
            mojiLike "like".data (not_hasPat_eq_of_no_occur (by decide)) _
            (not_hasPat_eq_of_no_occur
              (replaceSeq_no_occur mojiHeart " love ".data (by decide) (by decide)
                (by decide) _))))) ⟨mojiHeart, rfl, hinf⟩
  · intro hinf
    refine replaceSeq_preserves (fun q => q = mojiLike) (eqPat_wf _ (by decide) (by decide))
      mojiSad "sad".data (not_hasPat_eq_of_no_occur (by decide)) _
      (replaceSeq_preserves (fun q => q = mojiLike) (eqPat_wf _ (by decide) (by decide))
        mojiHappy "happy".data (not_hasPat_eq_of_no_occur (by decide)) _
        (replaceSeq_preserves (fun q => q = mojiLike) (eqPat_wf _ (by decide) (by decide))
          mojiDislike "dislike".data (not_hasPat_eq_of_no_occur (by decide)) _
          (not_hasPat_eq_of_no_occur
            (replaceSeq_no_occur mojiLike " like ".data (by decide) (by decide)
              (by decide) _)))) ⟨mojiLike, rfl, hinf⟩
  · intro hinf
    refine replaceSeq_preserves (fun q => q = mojiDislike) (eqPat_wf _ (by decide) (by decide))
      mojiSad "sad".data (not_hasPat_eq_of_no_occur (by decide)) _
      (replaceSeq_preserves (fun q => q = mojiDislike) (eqPat_wf _ (by decide) (by decide))
        mojiHappy "happy".data (not_hasPat_eq_of_no_occur (by decide)) _
        (not_hasPat_eq_of_no_occur
          (replaceSeq_no_occur mojiDislike " dislike ".data (by decide) (by decide)
            (by decide) _))) ⟨mojiDislike, rfl, hinf⟩
  · intro hinf
    refine replaceSeq_preserves (fun q => q = mojiHappy) (eqPat_wf _ (by decide) (by decide))
      mojiSad "sad".data (not_hasPat_eq_of_no_occur (by decide)) _
      (not_hasPat_eq_of_no_occur
        (replaceSeq_no_occur mojiHappy " happy ".data (by decide) (by decide)
          (by decide) _)) ⟨mojiHappy, rfl, hinf⟩
  · intro hinf
    exact not_hasPat_eq_of_no_occur
      (replaceSeq_no_occur mojiSad " sad ".data (by decide) (by decide) (by decide) _)
      ⟨mojiSad, rfl, hinf⟩

/-- The emoji pass is the identity when no pattern occurs. -/
theorem emojiPass_eq_self {s : List Char} (h1 : ¬ (mojiHeart <:+: s))
    (h2 : ¬ (mojiLike <:+: s)) (h3 : ¬ (mojiDislike <:+: s))
    (h4 : ¬ (mojiHappy <:+: s)) (h5 : ¬ (mojiSad <:+: s)) : emojiPass s = s := by
  unfold emojiPass
  rw [replaceSeq_eq_self mojiHeart " love ".data s h1,
    replaceSeq_eq_self mojiLike " like ".data s h2,
    replaceSeq_eq_self mojiDislike " dislike ".data s h3,
    replaceSeq_eq_self mojiHappy " happy ".data s h4,
    replaceSeq_eq_self mojiSad " sad ".data s h5]

theorem cleanList_lowerFixed (s : List Char) : LowerFixed (cleanList s) := by
  unfold cleanList emojiPass
  apply lowerFixed_collapseWs
  refine lowerFixed_replaceSeq (lowerFixed_replaceSeq (lowerFixed_replaceSeq
    (lowerFixed_replaceSeq (lowerFixed_replaceSeq ?_ (by unfold LowerFixed; decide))
    (by unfold LowerFixed; decide)) (by unfold LowerFixed; decide))
    (by unfold LowerFixed; decide)) (by unfold LowerFixed; decide)
  exact lowerFixed_of_sublist (subHtml_sublist _)
    (lowerFixed_of_sublist (subEmail_sublist _)
      (lowerFixed_of_sublist (subUrl_sublist _) (lowerFixed_map s)))

theorem cleanList_no_lt {s : List Char} (h : '<' ∉ s) : '<' ∉ cleanList s := by
  unfold cleanList emojiPass
  apply noLt_collapseWs
  refine noLt_replaceSeq (noLt_replaceSeq (noLt_replaceSeq (noLt_replaceSeq
    (noLt_replaceSeq ?_ (by decide)) (by decide)) (by decide)) (by decide)) (by decide)
  exact noLt_of_sublist (subHtml_sublist _)
    (noLt_of_sublist (subEmail_sublist _)
      (noLt_of_sublist (subUrl_sublist _) (noLt_map_pyLower h)))

theorem cleanList_no_url {s : List Char} (h : '<' ∉ s) : ¬ HasUrlMin (cleanList s) := by
  have hlt : '<' ∉ subEmail (subUrl (s.map pyLower)) :=
    noLt_of_sublist (subEmail_sublist _)
      (noLt_of_sublist (subUrl_sublist _) (noLt_map_pyLower h))
  unfold cleanList
  rw [subHtml_eq_self _ hlt]
  apply collapseWs_preserves IsUrlMinMatch (fun q hq => urlMin_wf hq)
  refine emojiPass_preserves IsUrlMinMatch (fun q hq => urlMin_wf hq)
    (not_hasUrlMin_of_scan_false (by decide)) (not_hasUrlMin_of_scan_false (by decide))
    (not_hasUrlMin_of_scan_false (by decide)) (not_hasUrlMin_of_scan_false (by decide))
    (not_hasUrlMin_of_scan_false (by decide)) ?_
  exact subEmail_preserves_no_url _ (subUrl_no_url _)

theorem cleanList_no_email {s : List Char} (h : '<' ∉ s) : ¬ HasEmailMin (cleanList s) := by
  have hlt : '<' ∉ subEmail (subUrl (s.map pyLower)) :=
    noLt_of_sublist (subEmail_sublist _)
      (noLt_of_sublist (subUrl_sublist _) (noLt_map_pyLower h))
  unfold cleanList
  rw [subHtml_eq_self _ hlt]
  apply collapseWs_preserves IsEmailMinMatch (fun q hq => emailMin_wf hq)
  refine emojiPass_preserves IsEmailMinMatch (fun q hq => emailMin_wf hq)
    (not_hasEmailMin_of_scan_false (by decide)) (not_hasEmailMin_of_scan_false (by decide))
    (not_hasEmailMin_of_scan_false (by decide)) (not_hasEmailMin_of_scan_false (by decide))
    (not_hasEmailMin_of_scan_false (by decide)) ?_
  exact subEmail_no_email _

theorem cleanList_no_moji (s : List Char) :
    ¬ (mojiHeart <:+: cleanList s) ∧ ¬ (mojiLike <:+: cleanList s) ∧
    ¬ (mojiDislike <:+: cleanList s) ∧ ¬ (mojiHappy <:+: cleanList s) ∧
    ¬ (mojiSad <:+: cleanList s) := by
  have h := emojiPass_no_moji (subHtml (subEmail (subUrl (s.map pyLower))))
  unfold cleanList
  refine ⟨?_, ?_, ?_, ?_, ?_⟩ <;> intro hinf
  · exact collapseWs_preserves _ (eqPat_wf mojiHeart (by decide) (by decide))
      (not_hasPat_eq_of_no_occur h.1) ⟨mojiHeart, rfl, hinf⟩
  · exact collapseWs_preserves _ (eqPat_wf mojiLike (by decide) (by decide))
      (not_hasPat_eq_of_no_occur h.2.1) ⟨mojiLike, rfl, hinf⟩
  · exact collapseWs_preserves _ (eqPat_wf mojiDislike (by decide) (by decide))
      (not_hasPat_eq_of_no_occur h.2.2.1) ⟨mojiDislike, rfl, hinf⟩
  · exact collapseWs_preserves _ (eqPat_wf mojiHappy (by decide) (by decide))
      (not_hasPat_eq_of_no_occur h.2.2.2.1) ⟨mojiHappy, rfl, hinf⟩
  · exact collapseWs_preserves _ (eqPat_wf mojiSad (by decide) (by decide))
      (not_hasPat_eq_of_no_occur h.2.2.2.2) ⟨mojiSad, rfl, hinf⟩

theorem cleanList_idem {s : List Char} (h : '<' ∉ s) :
    cleanList (cleanList s) = cleanList s := by
  have hfix := cleanList_lowerFixed s
  have hurl := cleanList_no_url h
  have hemail := cleanList_no_email h
  have hlt := cleanList_no_lt h
  have hmoji := cleanList_no_moji s
  calc cleanList (cleanList s)
      = collapseWs (emojiPass (subHtml (subEmail (subUrl
          ((cleanList s).map pyLower))))) := rfl
    _ = collapseWs (cleanList s) := by
        rw [map_pyLower_of_fixed _ hfix, subUrl_eq_self _ hurl,
          subEmail_eq_self _ hemail, subHtml_eq_self _ hlt,
          emojiPass_eq_self hmoji.1 hmoji.2.1 hmoji.2.2.1 hmoji.2.2.2.1 hmoji.2.2.2.2]
    _ = cleanList s :=
        collapseWs_idem (emojiPass (subHtml (subEmail (subUrl (s.map pyLower)))))

/-! ## Feature extraction (`ReviewPreprocessor.extract_features`,
preprocessing lines 144-194)

The NLTK word tokenizer and the TextBlob sentiment scores are external
collaborators and enter as parameters (`tok`, `pol`, `subj`). -/

/-- Is `pat` a contiguous substring (Python `pat in s`)? -/
def containsSub (pat : List Char) : List Char → Bool
  | [] => pat.isEmpty
  | c :: rest => pat.isPrefixOf (c :: rest) || containsSub pat rest

/-- Python `string.punctuation`. -/
def pyPunctuation : List Char := "!\"#$%&'()*+,-./:;<=>?@[\\]^_`{|}~".data

/-- Python `str.isupper` for a single character, on the Latin-1 range. -/
def pyIsUpper (c : Char) : Bool :=
  (0x41 ≤ c.toNat && c.toNat ≤ 0x5A) || (0xC0 ≤ c.toNat && c.toNat ≤ 0xDE && c.toNat != 0xD7) ||
    c.toNat == 0x178

/-- Python lowercase letters on the Latin-1 range. -/
def pyIsLower (c : Char) : Bool :=
  (0x61 ≤ c.toNat && c.toNat ≤ 0x7A) || (0xDF ≤ c.toNat && c.toNat ≤ 0xFF && c.toNat != 0xF7)

/-- A cased character (Latin-1 range). -/
def pyIsCased (c : Char) : Bool := pyIsUpper c || pyIsLower c

/-- Python `str.isupper` for a word: at least one cased character and every
cased character uppercase. -/
def pyWordIsUpper (w : List Char) : Bool :=
  w.any pyIsCased && w.all fun c => !pyIsCased c || pyIsUpper c

/-- `re.finditer(r'(.)\1{2,}', text)`: the longest run of a repeated
character among runs of length at least 3 (`.` excludes the newline),
0 when there is none. -/
def repeatedChars : List Char → ℕ
  | [] => 0
  | c :: rest =>
    let n := 1 + (rest.takeWhile (· = c)).length
    max (if 3 ≤ n ∧ c ≠ '\n' then n else 0) (repeatedChars (rest.dropWhile (· = c)))
termination_by s => s.length
decreasing_by exact Nat.lt_succ_of_le (dropWhile_length_le _ _)

/-- A sentence separator of `re.split(r'[.!?]+', text)`. -/
def isSentSep (c : Char) : Bool := c = '.' || c = '!' || c = '?'

/-- `re.split(r'[.!?]+', text)`: the pieces between separator runs,
including empty leading/trailing pieces (`re.split('', ...) = ['']`). -/
def splitSents (s : List Char) : List (List Char) :=
  match hrest : s.dropWhile (fun c => !isSentSep c) with
  | [] => [s.takeWhile (fun c => !isSentSep c)]
  | _ :: rt => s.takeWhile (fun c => !isSentSep c) :: splitSents (rt.dropWhile isSentSep)
termination_by s.length
decreasing_by
  calc (rt.dropWhile isSentSep).length ≤ rt.length := dropWhile_length_le _ _
    _ < (s.dropWhile fun c => !isSentSep c).length := by rw [hrest]; simp
    _ ≤ s.length := dropWhile_length_le _ _

/-- The fixed spam-phrase list of the source (lines 190-191). -/
def spamPhrases : List (List Char) :=
  ["click here".data, "buy now".data, "limited time".data, "free shipping".data,
   "best product".data, "highly recommend".data, "must buy".data]

/-- The named feature map produced by `ReviewPreprocessor.extract_features`
(preprocessing lines 155-194), in source order. -/
structure ReviewFeatures where
  text_length : ℕ
  word_count : ℕ
  avg_word_length : ℚ
  sentence_count : ℕ
  exclamation_count : ℕ
  question_count : ℕ
  uppercase_ratio : ℚ
  digit_count : ℕ
  special_char_count : ℕ
  polarity : ℚ
  subjectivity : ℚ
  rating : ℚ
  sentiment_rating_diff : ℚ
  has_url : ℕ
  has_email : ℕ
  repeated_chars : ℕ
  all_caps_words : ℕ
  unique_word_ratio : ℚ
  spam_phrase_count : ℕ
deriving DecidableEq

/-- `ReviewPreprocessor.extract_features(text, rating)`. The divisions of
`avg_word_length`, `uppercase_ratio` and `unique_word_ratio` carry the
source's emptiness guards, so the division-by-zero branch is unreachable. -/
def extractFeatures (tok : List Char → List (List Char)) (pol subj : List Char → ℚ)
    (text : List Char) (rating : ℚ) : ReviewFeatures :=
  let cleaned := cleanList text
  let tokens := tok cleaned
  let polv := pol cleaned
  { text_length := text.length
    word_count := tokens.length
    avg_word_length :=
      if tokens = [] then 0 else ((tokens.map List.length).sum : ℚ) / tokens.length
    sentence_count := (splitSents text).length
    exclamation_count := text.count '!'
    question_count := text.count '?'
    uppercase_ratio := if text = [] then 0 else (text.countP pyIsUpper : ℚ) / text.length
    digit_count := text.countP fun c => '0' ≤ c && c ≤ '9'
    special_char_count := text.countP fun c => decide (c ∈ pyPunctuation)
    polarity := polv
    subjectivity := subj cleaned
    rating := rating
    sentiment_rating_diff := |polv - rating / 5|
    has_url := if containsSub "http".data text || containsSub "www".data text then 1 else 0
    has_email := if hasEmailSearch text then 1 else 0
    repeated_chars := repeatedChars text
    all_caps_words := tokens.countP fun w => pyWordIsUpper w && decide (1 < w.length)
    unique_word_ratio := if tokens = [] then 0 else (tokens.dedup.length : ℚ) / tokens.length
    spam_phrase_count := spamPhrases.countP fun p => containsSub p cleaned }

/-! ## Explanation generator (`FakeReviewClassifier._generate_explanation`,
classifier lines 293-339) -/

/-- `f"{p:.2%}"`, modelled with round-half-up to two decimals. -/
def formatPercent (p : ℚ) : String :=
  let n : ℤ := ⌊p * 10000 + 1/2⌋
  let whole := n / 100
  let frac := (n % 100).toNat
  toString whole ++ "." ++ (if frac < 10 then "0" ++ toString frac else toString frac) ++ "%"

/-- The generic statistical-pattern message embedding the probability
(classifier line 337). -/
def statMessage (p : ℚ) : String :=
  "Statistical pattern matches fake reviews (confidence: " ++ formatPercent p ++ ")"

/-- The eight indicator checks of `_generate_explanation`
(classifier lines 312-334), in source order with the source thresholds. -/
def explanationRules : List ((ReviewFeatures → Bool) × String) :=
  [ (fun f => decide (2 < f.spam_phrase_count), "Contains multiple spam phrases"),
    (fun f => decide (1/2 < f.sentiment_rating_diff), "Sentiment doesn't match rating"),
    (fun f => decide (f.unique_word_ratio < 1/2), "Low vocabulary diversity (repetitive text)"),
    (fun f => decide (3/10 < f.uppercase_ratio), "Excessive use of capital letters"),
    (fun f => decide (5 < f.exclamation_count), "Excessive use of exclamation marks"),
    (fun f => decide (f.word_count < 10), "Review is suspiciously short"),
    (fun f => decide (3 < f.all_caps_words), "Multiple words in ALL CAPS"),
    (fun f => decide (f.has_url = 1), "Contains URLs") ]

/-- `_generate_explanation` (classifier lines 293-339): early exit below
0.3, then the eight sequential indicator checks of `explanationRules`,
each appending its reason to `reasons` when triggered (the fold performs
exactly the source's eight if-append statements in order), then the
generic fallback when `reasons` stayed empty. -/
def generateExplanation (f : ReviewFeatures) (p : ℚ) : List String :=
  if p < 3/10 then ["Review appears genuine"]
  else
    let reasons := explanationRules.foldl (fun acc r => if r.1 f then acc ++ [r.2] else acc) []
    if reasons = [] then [statMessage p] else reasons

/-- The spec's phrasing of the explanation contract: early "genuine" exit,
otherwise one reason per triggered rule in the fixed order, with the
generic statistical-pattern fallback. -/
def specExplanation (f : ReviewFeatures) (p : ℚ) : List String :=
  if p < 3/10 then ["Review appears genuine"]
  else
    let fired := (explanationRules.filter fun r => r.1 f).map (·.2)
    if fired = [] then [statMessage p] else fired

/-! ## Classifier state, predict, save and load
(`FakeReviewClassifier`, classifier lines 22-380)

The three fitted base models are their positive-class probability
functions, and the fitted vectorizer is its induced review-to-feature-row
map (sklearn numerics are external); the preprocessor is stateless and is
reconstructed identically by every instance. -/

/-- The classifier state read by `predict` and round-tripped by
`save`/`load` (plus the optional BERT augmentation, which `save` does not
persist). -/
structure ClassifierState where
  rf_model : List ℚ → ℚ
  xgb_model : List ℚ → ℚ
  svm_model : List ℚ → ℚ
  vectorizer : List Char → ℚ → List ℚ
  ensemble_weights : ℚ × ℚ × ℚ
  use_bert : Bool
  bert_embed : List Char → List ℚ

/-- The feature row `predict` scores: vectorizer block plus the optional
BERT block (classifier lines 147-159). -/
def featureVector (st : ClassifierState) (text : List Char) (rating : ℚ) : List ℚ :=
  st.vectorizer text rating ++ (if st.use_bert then st.bert_embed text else [])

/-- `FakeReviewClassifier.predict` (classifier lines 244-291). -/
def classifierPredict (threshold : ℚ) (tok : List Char → List (List Char))
    (pol subj : List Char → ℚ) (st : ClassifierState)
    (text : List Char) (rating : ℚ) : PredictionResult :=
  let feats := extractFeatures tok pol subj text rating
  let v := featureVector st text rating
  let p0 := st.rf_model v
  let p1 := st.xgb_model v
  let p2 := st.svm_model v
  let p := ensembleProba st.ensemble_weights.1 st.ensemble_weights.2.1 st.ensemble_weights.2.2
    p0 p1 p2
  mkPrediction threshold st.ensemble_weights.1 st.ensemble_weights.2.1 st.ensemble_weights.2.2
    p0 p1 p2 (generateExplanation feats p)

/-- The five artifacts `save` writes under one version directory
(classifier lines 354-358). -/
structure ModelBundle where
  rf_model : List ℚ → ℚ
  xgb_model : List ℚ → ℚ
  svm_model : List ℚ → ℚ
  vectorizer : List Char → ℚ → List ℚ
  ensemble_weights : ℚ × ℚ × ℚ

/-- `FakeReviewClassifier.save(version)`: dump the five artifacts as one
unit keyed by the version string (a later save of the same version shadows
an earlier one, like overwriting the files). -/
def ClassifierState.save (st : ClassifierState) (store : List (String × ModelBundle))
    (version : String) : List (String × ModelBundle) :=
  (version, ⟨st.rf_model, st.xgb_model, st.svm_model, st.vectorizer, st.ensemble_weights⟩)
    :: store

/-- `FakeReviewClassifier.load(version)` on the instance `fresh`: replace
the five persisted fields from the version's bundle; missing files raise
(`none`). The BERT fields are not persisted and keep `fresh`'s values. -/
def ClassifierState.load (fresh : ClassifierState) (store : List (String × ModelBundle))
    (version : String) : Option ClassifierState :=
  (store.lookup version).map fun b =>
    { rf_model := b.rf_model
      xgb_model := b.xgb_model
      svm_model := b.svm_model
      vectorizer := b.vectorizer
      ensemble_weights := b.ensemble_weights
      use_bert := fresh.use_bert
      bert_embed := fresh.bert_embed }

/-! ## TF-IDF vocabulary width (`TfidfVectorizer(max_features=5000,
ngram_range=(1, 3))`, classifier line 36, used by `extract_features`
line 131)

`fit_transform` learns the vocabulary of the corpus it is given; the
matrix width is the vocabulary size (capped at 5000) plus the 19 numerical
columns. Only the column COUNT is modelled; the TF-IDF weights themselves
are external sklearn numerics. -/

/-- A word character of sklearn's default token pattern `\b\w\w+\b`
(ASCII range). -/
def isWordChar (c : Char) : Bool :=
  ('a' ≤ c && c ≤ 'z') || ('A' ≤ c && c ≤ 'Z') || ('0' ≤ c && c ≤ '9') || c = '_'

/-- Maximal word-character runs of a string. -/
def wordRuns : List Char → List (List Char)
  | [] => []
  | c :: rest =>
    if isWordChar c then
      (c :: rest.takeWhile isWordChar) :: wordRuns (rest.dropWhile isWordChar)
    else wordRuns rest
termination_by s => s.length
decreasing_by
  · exact Nat.lt_succ_of_le (dropWhile_length_le _ _)
  · simp

/-- sklearn tokenization: lowercase, then the word-character runs of
length at least 2 (`\b\w\w+\b`). -/
def sklearnTokens (s : List Char) : List (List Char) :=
  (wordRuns (s.map pyLower)).filter fun w => 2 ≤ w.length

/-- The contiguous `n`-grams of a token list. -/
def ngramsOf (n : ℕ) (toks : List (List Char)) : List (List (List Char)) :=
  (List.range (toks.length + 1 - n)).map fun i => (toks.drop i).take n

/-- All 1-, 2- and 3-grams of one document (`ngram_range=(1, 3)`). -/
def docNgrams (s : List Char) : List (List (List Char)) :=
  let toks := sklearnTokens s
  ngramsOf 1 toks ++ ngramsOf 2 toks ++ ngramsOf 3 toks

/-- The fitted vocabulary size over a corpus: distinct n-grams, capped at
`max_features=5000` (the cap selects by frequency, which changes which
entries are kept but not how many). -/
def fitVocabSize (corpus : List (List Char)) : ℕ :=
  min 5000 ((corpus.flatMap docNgrams).dedup.length)

/-- The column count of the matrix built by
`FakeReviewClassifier.extract_features` on a given corpus: `fit_transform`
re-learns the vocabulary of THAT corpus (line 131) and 19 numerical
columns are appended (lines 136-148); BERT is disabled by default. -/
def extractFeaturesWidth (corpus : List (List Char)) : ℕ :=
  fitVocabSize (corpus.map cleanList) + 19

/-! ## Duplicate detection (`ReviewPreprocessor.detect_duplicates`,
preprocessing lines 228-271)

The TF-IDF + cosine-similarity numerics live in sklearn (an external
collaborator); the similarity matrix enters as a parameter `sim`, and the
flagging loop of lines 256-267 is embedded as written. -/

/-- The `duplicates` list built by the double loop
`for i in range(n): for j in range(i+1, n): if sim[i][j] >= thr`. -/
def duplicatePairs (n : ℕ) (sim : ℕ → ℕ → ℚ) (thr : ℚ) : List (ℕ × ℕ) :=
  (List.range n).flatMap fun i =>
    ((List.range n).filter fun j => i < j).filterMap fun j =>
      if thr ≤ sim i j then some (i, j) else none

/-- The `duplicate_indices` set: second components of the pairs
("keep first occurrence"). -/
def duplicateIndices (n : ℕ) (sim : ℕ → ℕ → ℚ) (thr : ℚ) : List ℕ :=
  (duplicatePairs n sim thr).map (·.2)

/-- The `is_duplicate` flag of row `k` (`reviews_df.index.isin(duplicate_indices)`). -/
def isDuplicate (n : ℕ) (sim : ℕ → ℕ → ℚ) (thr : ℚ) (k : ℕ) : Bool :=
  decide (k ∈ duplicateIndices n sim thr)

/-! ## Batch prediction (`ReviewPredictor.predict_batch`,
src/prediction.py lines 163-193) -/

/-- One output row of `predict_batch`: either a prediction dictionary or the
`{'original_text': ..., 'error': ...}` entry appended by the handler. -/
inductive BatchEntry (α : Type) where
  | ok (text : String) (result : α)
  | err (text : String) (msg : String)
deriving DecidableEq

/-- Is this row an error entry? -/
def BatchEntry.isError {α : Type} : BatchEntry α → Bool
  | .err _ _ => true
  | .ok _ _ => false

/-- The entry `predict_batch` appends for one text: the `predict_single`
result on success, the error record on an exception. `predict_single` is a
parameter `f` returning `Except` (fallible row processing). -/
def batchEntryOf {α : Type} (f : String → Except String α) (t : String) : BatchEntry α :=
  match f t with
  | .ok r => .ok t r
  | .error e => .err t e

/-- `ReviewPredictor.predict_batch`: per-row try/except, appending one entry
per input in input order; the loop itself never raises (it is total). -/
def predictBatch {α : Type} (f : String → Except String α) (texts : List String) :
    List (BatchEntry α) :=
  texts.map (batchEntryOf f)

/-- Does `f` fail on this row? -/
def rowFails {α : Type} (f : String → Except String α) (t : String) : Bool :=
  match f t with
  | .error _ => true
  | .ok _ => false

/-! ## ModelTrainer (`src/model_training.py`) -/

/-- A fitted estimator as used polymorphically by `ModelTrainer`: a
`predict` capability and an optional `predict_proba` capability (`hasattr`
is modelled by `Option`). -/
structure TrainedModel where
  predictF : List (List ℚ) → List ℚ
  predictProbaF : Option (List (List ℚ) → List (List ℚ))

/-- The `ModelTrainer` state touched by `predict` / `predict_proba`. -/
structure ModelTrainer where
  trained_models : List (String × TrainedModel)
  best_model_name : Option String
  best_score : ℚ

/-- `ModelTrainer.predict` (lines 269-283): `ValueError` when the named
model is absent from `trained_models`. The method only reads the trainer,
so the returned state is the input state. -/
def ModelTrainer.predictM (t : ModelTrainer) (name : String) (X : List (List ℚ)) :
    Except String (List ℚ) × ModelTrainer :=
  match t.trained_models.lookup name with
  | none => (.error ("Model " ++ name ++ " not trained yet"), t)
  | some m => (.ok (m.predictF X), t)

/-- `ModelTrainer.predict_proba` (lines 285-304): `ValueError` when the
named model is absent, and also when the model lacks `predict_proba`. -/
def ModelTrainer.predictProbaM (t : ModelTrainer) (name : String) (X : List (List ℚ)) :
    Except String (List (List ℚ)) × ModelTrainer :=
  match t.trained_models.lookup name with
  | none => (.error ("Model " ++ name ++ " not trained yet"), t)
  | some m =>
    match m.predictProbaF with
    | some f => (.ok (f X), t)
    | none => (.error ("Model " ++ name ++ " does not support predict_proba"), t)

theorem countP_not_eq {α : Type} (l : List α) (p : α → Bool) :
    l.countP (fun a => !p a) = l.length - l.countP p := by
  induction l with
  | nil => simp
  | cons a t ih =>
    have hle : t.countP p ≤ t.length := List.countP_le_length p
    by_cases h : p a <;> simp [List.countP_cons, h, ih] <;> omega

/-- Is this `Except` an error? -/
def exceptIsError {ε α : Type} : Except ε α → Bool
  | .error _ => true
  | .ok _ => false

/-! # Claims -/

/-- **C1.** For every review scored by `predict`, and element-wise for the
test split inside `train`, the reported fake probability equals the
weighted linear combination `w0*p_rf + w1*p_xgb + w2*p_svm` of the three
base models' positive-class probabilities under the configured ensemble
weights, within floating-point tolerance `1e-9`. -/
theorem C1_ensemble_weighted_sum (w0 w1 w2 p0 p1 p2 : ℚ) (threshold : ℚ)
    (reasons : List String) (rf xgbp svmp : List ℚ) :
    |(mkPrediction threshold w0 w1 w2 p0 p1 p2 reasons).fake_probability
        - (w0 * p0 + w1 * p1 + w2 * p2)| < 1 / 1000000000 ∧
    ∀ i : ℕ, ∀ a ∈ (trainEnsembleProba w0 w1 w2 rf xgbp svmp)[i]?,
      ∀ x ∈ rf[i]?, ∀ y ∈ xgbp[i]?, ∀ z ∈ svmp[i]?,
        |a - (w0 * x + w1 * y + w2 * z)| < 1 / 1000000000 := by
  constructor
  · simp [mkPrediction, ensembleProba]
  · intro i a ha x hx y hy z hz
    induction rf generalizing xgbp svmp i with
    | nil => simp [trainEnsembleProba] at ha
    | cons r rs ih =>
      cases xgbp with
      | nil => simp [trainEnsembleProba] at ha
      | cons g gs =>
        cases svmp with
        | nil => simp [trainEnsembleProba] at ha
        | cons s ss =>
          cases i with
          | zero =>
            simp [trainEnsembleProba] at ha hx hy hz
            subst ha hx hy hz
            simp
          | succ j =>
            simp only [trainEnsembleProba, List.getElem?_cons_succ] at ha hx hy hz
            exact ih gs ss j ha hx hy hz

/-- Witness for C1 at the configured weights `0.4/0.35/0.25` and concrete
base-model probabilities. -/
theorem C1_ensemble_weighted_sum_witness :
    |(mkPrediction (1/2) (2/5) (7/20) (1/4) (1/2) (1/3) (1/4) []).fake_probability
        - ((2/5) * (1/2) + (7/20) * (1/3) + (1/4) * (1/4))| < 1 / 1000000000 ∧
    |((2/5) * (1/4 : ℚ) + (7/20) * (1/2) + (1/4) * (1/2))
        - ((2/5) * (1/4) + (7/20) * (1/2) + (1/4) * (1/2))| < 1 / 1000000000 := by
  have h := C1_ensemble_weighted_sum (2/5) (7/20) (1/4) (1/2) (1/3) (1/4) (1/2) []
    [1/4] [1/2] [1/2]
  exact ⟨h.1, h.2 0 _ rfl _ rfl _ rfl _ rfl⟩

/-- **C4.** For every prediction returned by `predict`: with base-model
probabilities in `[0,1]` and the configured non-negative weights summing to
1, the fake probability lies in `[0,1]`; the confidence equals
`|fake_probability - 0.5| * 2` and lies in `[0,1]`; and `is_fake` holds
exactly when the fake probability reaches the configured threshold. -/
theorem C4_prediction_result_fields (threshold w0 w1 w2 p0 p1 p2 : ℚ) (reasons : List String)
    (hw0 : 0 ≤ w0) (hw1 : 0 ≤ w1) (hw2 : 0 ≤ w2) (hsum : w0 + w1 + w2 = 1)
    (hp0 : 0 ≤ p0 ∧ p0 ≤ 1) (hp1 : 0 ≤ p1 ∧ p1 ≤ 1) (hp2 : 0 ≤ p2 ∧ p2 ≤ 1) :
    (0 ≤ (mkPrediction threshold w0 w1 w2 p0 p1 p2 reasons).fake_probability ∧
      (mkPrediction threshold w0 w1 w2 p0 p1 p2 reasons).fake_probability ≤ 1) ∧
    (mkPrediction threshold w0 w1 w2 p0 p1 p2 reasons).confidence =
      |(mkPrediction threshold w0 w1 w2 p0 p1 p2 reasons).fake_probability - 1/2| * 2 ∧
    (0 ≤ (mkPrediction threshold w0 w1 w2 p0 p1 p2 reasons).confidence ∧
      (mkPrediction threshold w0 w1 w2 p0 p1 p2 reasons).confidence ≤ 1) ∧
    ((mkPrediction threshold w0 w1 w2 p0 p1 p2 reasons).is_fake = true ↔
      threshold ≤ (mkPrediction threshold w0 w1 w2 p0 p1 p2 reasons).fake_probability) := by
  obtain ⟨h00, h01⟩ := hp0
  obtain ⟨h10, h11⟩ := hp1
  obtain ⟨h20, h21⟩ := hp2
  have hlo : 0 ≤ w0 * p0 + w1 * p1 + w2 * p2 := by positivity
  have hhi : w0 * p0 + w1 * p1 + w2 * p2 ≤ 1 := by nlinarith
  refine ⟨⟨?_, ?_⟩, ?_, ⟨?_, ?_⟩, ?_⟩ <;>
    simp only [mkPrediction, ensembleProba]
  · exact hlo
  · exact hhi
  · positivity
  · have habs : |w0 * p0 + w1 * p1 + w2 * p2 - 1/2| ≤ 1/2 := by
      rw [abs_le]; constructor <;> linarith
    linarith
  · simp

/-- Witness for C4 at the configured weights and threshold with all three
base probabilities `3/4`. -/
theorem C4_prediction_result_fields_witness :
    (0 ≤ (mkPrediction (1/2) (2/5) (7/20) (1/4) (3/4) (3/4) (3/4) []).fake_probability ∧
      (mkPrediction (1/2) (2/5) (7/20) (1/4) (3/4) (3/4) (3/4) []).fake_probability ≤ 1) ∧
    (mkPrediction (1/2) (2/5) (7/20) (1/4) (3/4) (3/4) (3/4) []).confidence =
      |(mkPrediction (1/2) (2/5) (7/20) (1/4) (3/4) (3/4) (3/4) []).fake_probability
        - 1/2| * 2 ∧
    (0 ≤ (mkPrediction (1/2) (2/5) (7/20) (1/4) (3/4) (3/4) (3/4) []).confidence ∧
      (mkPrediction (1/2) (2/5) (7/20) (1/4) (3/4) (3/4) (3/4) []).confidence ≤ 1) ∧
    ((mkPrediction (1/2) (2/5) (7/20) (1/4) (3/4) (3/4) (3/4) []).is_fake = true ↔
      (1/2 : ℚ) ≤ (mkPrediction (1/2) (2/5) (7/20) (1/4) (3/4) (3/4) (3/4)
        []).fake_probability) :=
  C4_prediction_result_fields (1/2) (2/5) (7/20) (1/4) (3/4) (3/4) (3/4) []
    (by norm_num) (by norm_num) (by norm_num) (by norm_num)
    (by norm_num) (by norm_num) (by norm_num)

/-- **C5 counterexample.** `clean_text` strips HTML tags AFTER URLs, so a
tag can splice a URL back together: `clean("ht<b>tp://x") = "http://x"`,
which contains a URL-pattern match, and cleaning it again erases it, so
`clean` is not idempotent either. -/
theorem C5_clean_counterexample :
    HasUrlMatch (cleanList "ht<b>tp://x".data) ∧
    cleanList (cleanList "ht<b>tp://x".data) ≠ cleanList "ht<b>tp://x".data := by
  have hc : cleanList "ht<b>tp://x".data = "http://x".data := by
    simp [cleanList, collapseWs, emojiPass, subHtml, subEmail, subUrl, replaceSeq,
      pyWords, unwords, pyLower, urlHead, emailHead, atFollower, findGt, isSpaceChar,
      mojiHeart, mojiLike, mojiDislike, mojiHappy, mojiSad]
  have hc2 : cleanList "http://x".data = [] := by
    simp [cleanList, collapseWs, emojiPass, subHtml, subEmail, subUrl, replaceSeq,
      pyWords, unwords, pyLower, urlHead, emailHead, atFollower, findGt, isSpaceChar,
      mojiHeart, mojiLike, mojiDislike, mojiHappy, mojiSad]
  constructor
  · rw [hc]
    exact ⟨"http://x".data, ⟨"://x".data, by decide, by decide, Or.inl rfl⟩,
      List.infix_refl _⟩
  · rw [hc, hc2]
    decide

/-- **C5 (amended).** For every input text not containing `'<'`,
`clean_text` yields a string with no substring matching the URL pattern
`http\S+|www\S+` and none matching the email pattern `\S+@\S+`, and it is
idempotent: `clean(clean(text)) = clean(text)`. -/
theorem C5_clean_no_url_email_idempotent (s : List Char) (h : '<' ∉ s) :
    ¬ HasUrlMatch (cleanList s) ∧ ¬ HasEmailMatch (cleanList s) ∧
    cleanList (cleanList s) = cleanList s :=
  ⟨fun hc => cleanList_no_url h (hasUrlMatch_iff_min.mp hc),
   fun hc => cleanList_no_email h (hasEmailMatch_iff_min.mp hc),
   cleanList_idem h⟩

/-- Witness for C5 at a concrete `'<'`-free review text. -/
theorem C5_clean_no_url_email_idempotent_witness :
    ¬ HasUrlMatch (cleanList "Nice Product! buy now".data) ∧
    ¬ HasEmailMatch (cleanList "Nice Product! buy now".data) ∧
    cleanList (cleanList "Nice Product! buy now".data) =
      cleanList "Nice Product! buy now".data :=
  C5_clean_no_url_email_idempotent "Nice Product! buy now".data (by decide)

/-- **C6.** An item `j` is flagged as duplicate iff some earlier item
`i < j` has similarity at least the threshold; no item is flagged against
itself; and in the first-duplicate scenario (`sim i j ≥ thr` for `i < j`,
with `i` itself not preceded by any similar item), `j` is flagged while `i`
is not. -/
theorem C6_duplicate_flagging (n : ℕ) (sim : ℕ → ℕ → ℚ) (thr : ℚ) :
    (∀ k, isDuplicate n sim thr k = true ↔ (k < n ∧ ∃ i, i < k ∧ thr ≤ sim i k)) ∧
    (∀ i j, i < j → j < n → thr ≤ sim i j → (∀ l, l < i → ¬ thr ≤ sim l i) →
      isDuplicate n sim thr j = true ∧ isDuplicate n sim thr i = false) := by
  have hmem : ∀ k, k ∈ duplicateIndices n sim thr ↔ (k < n ∧ ∃ i, i < k ∧ thr ≤ sim i k) := by
    intro k
    simp only [duplicateIndices, duplicatePairs, List.mem_map, List.mem_flatMap,
      List.mem_filterMap, List.mem_filter, List.mem_range]
    constructor
    · rintro ⟨⟨a, b⟩, ⟨i, ⟨hi, j, ⟨⟨hj, hij⟩, hcond⟩⟩⟩, hk⟩
      by_cases hthr : thr ≤ sim i j
      · simp [hthr] at hcond
        obtain ⟨ha, hb⟩ := hcond
        subst ha hb
        simp at hk
        subst hk
        exact ⟨hj, i, by simpa using hij, hthr⟩
      · simp [hthr] at hcond
    · rintro ⟨hkn, i, hik, hthr⟩
      refine ⟨(i, k), ⟨i, ⟨lt_trans hik hkn, k, ⟨⟨hkn, by simpa using hik⟩, ?_⟩⟩⟩, rfl⟩
      simp [hthr]
  constructor
  · intro k
    rw [isDuplicate, decide_eq_true_iff]
    exact hmem k
  · intro i j hij hjn hthr hfirst
    constructor
    · rw [isDuplicate, decide_eq_true_iff, hmem]
      exact ⟨hjn, i, hij, hthr⟩
    · rw [isDuplicate, decide_eq_false_iff_not, hmem]
      rintro ⟨hin, l, hli, hsim⟩
      exact hfirst l hli hsim

/-- Witness for C6 at a concrete three-review corpus in which review 2
duplicates review 0. -/
theorem C6_duplicate_flagging_witness :
    isDuplicate 3 (fun i j => if (i, j) = (0, 2) then 1 else 0) (9/10) 2 = true ∧
    isDuplicate 3 (fun i j => if (i, j) = (0, 2) then 1 else 0) (9/10) 0 = false := by
  have h := (C6_duplicate_flagging 3 (fun i j => if (i, j) = (0, 2) then 1 else 0) (9/10)).2
    0 2 (by norm_num) (by norm_num) (by norm_num)
    (by intro l hl; exact absurd hl (Nat.not_lt_zero l))
  exact ⟨h.1, h.2⟩

/-- **C7.** If exactly one row of a batch fails, `predict_batch` returns
(it is total, hence does not raise) one entry per input in input order:
`N` entries of which `N-1` are successes and one is the error entry. -/
theorem C7_batch_row_isolation {α : Type} (f : String → Except String α) (texts : List String)
    (hone : texts.countP (rowFails f) = 1) :
    (predictBatch f texts).length = texts.length ∧
    (predictBatch f texts).countP BatchEntry.isError = 1 ∧
    (predictBatch f texts).countP (fun e => !e.isError) = texts.length - 1 ∧
    ∀ i : ℕ, (predictBatch f texts)[i]? = texts[i]?.map (batchEntryOf f) := by
  have hcomp : ∀ t, (batchEntryOf f t).isError = rowFails f t := by
    intro t
    rw [batchEntryOf, rowFails]
    cases f t <;> simp [BatchEntry.isError]
  have herr : (predictBatch f texts).countP BatchEntry.isError = 1 := by
    rw [predictBatch, List.countP_map]
    rw [← hone]
    exact List.countP_congr (fun t _ => by simp [Function.comp, hcomp])
  have hlen : (predictBatch f texts).length = texts.length := List.length_map _ _
  refine ⟨hlen, herr, ?_, ?_⟩
  · rw [countP_not_eq, herr, hlen]
  · intro i
    simp [predictBatch]

/-- Witness for C7 on a three-row batch whose middle row fails. -/
theorem C7_batch_row_isolation_witness :
    (predictBatch (fun t => if t = "" then Except.error "missing text" else Except.ok 1)
        ["good product", "", "nice quality"]).countP BatchEntry.isError = 1 ∧
    (predictBatch (fun t => if t = "" then Except.error "missing text" else Except.ok 1)
        ["good product", "", "nice quality"]).length = 3 := by
  have h := C7_batch_row_isolation
    (fun t => if t = "" then Except.error "missing text" else (Except.ok 1 : Except String ℕ))
    ["good product", "", "nice quality"] (by decide)
  exact ⟨h.2.1, h.1⟩

/-- **C10.** `ModelTrainer.predict` and `ModelTrainer.predict_proba` raise
`ValueError` when the named model is not trained, `predict_proba` also
raises `ValueError` when the model lacks probability estimates, and in all
these error cases the trainer's state is unchanged. -/
theorem C10_trainer_untrained_errors (t : ModelTrainer) (name : String) (X : List (List ℚ)) :
    (t.trained_models.lookup name = none →
      exceptIsError (t.predictM name X).1 = true ∧ (t.predictM name X).2 = t ∧
      exceptIsError (t.predictProbaM name X).1 = true ∧ (t.predictProbaM name X).2 = t) ∧
    (∀ m, t.trained_models.lookup name = some m → m.predictProbaF = none →
      exceptIsError (t.predictProbaM name X).1 = true ∧ (t.predictProbaM name X).2 = t) := by
  constructor
  · intro hnone
    refine ⟨?_, ?_, ?_, ?_⟩ <;>
      simp [ModelTrainer.predictM, ModelTrainer.predictProbaM, hnone, exceptIsError]
  · intro m hm hnoproba
    constructor <;>
      simp [ModelTrainer.predictProbaM, hm, hnoproba, exceptIsError]

/-- Witness for C10: an empty trainer has no model named `svm`, and a
trainer holding a probability-free `svm` errors on `predict_proba`. -/
theorem C10_trainer_untrained_errors_witness :
    exceptIsError ((ModelTrainer.mk [] none 0).predictM "svm" []).1 = true ∧
    exceptIsError ((ModelTrainer.mk [("svm", ⟨fun _ => [], none⟩)] none 0).predictProbaM
      "svm" []).1 = true := by
  constructor
  · exact ((C10_trainer_untrained_errors (ModelTrainer.mk [] none 0) "svm" []).1 (by rfl)).1
  · exact ((C10_trainer_untrained_errors (ModelTrainer.mk [("svm", ⟨fun _ => [], none⟩)] none 0)
      "svm" []).2 ⟨fun _ => [], none⟩ (by rfl) rfl).1

/-- **C8.** The explanation generator returns exactly
`["Review appears genuine"]` below probability 0.3; otherwise it appends,
in the fixed order, one reason per triggered rule among the eight
indicators, and falls back to the single generic statistical-pattern
message embedding the probability when no rule triggers. -/
theorem C8_explanation_contract (f : ReviewFeatures) (p : ℚ) :
    generateExplanation f p = specExplanation f p ∧
    (p < 3/10 → generateExplanation f p = ["Review appears genuine"]) := by
  have hfold : ∀ (rules : List ((ReviewFeatures → Bool) × String)) (acc : List String),
      rules.foldl (fun acc r => if r.1 f then acc ++ [r.2] else acc) acc
        = acc ++ (rules.filter fun r => r.1 f).map (·.2) := by
    intro rules
    induction rules with
    | nil => simp
    | cons r rs ih =>
      intro acc
      by_cases hr : r.1 f <;> simp [hr, ih]
  constructor
  · unfold generateExplanation specExplanation
    by_cases h : p < 3/10
    · simp [h]
    · simp [if_neg h, hfold]
      rw [hfold]
      simp
  · intro h
    simp [generateExplanation, h]

/-- Witness for C8 at an all-zero feature map and probability 0.2. -/
theorem C8_explanation_contract_witness :
    generateExplanation ⟨0, 0, 0, 0, 0, 0, 0, 0, 0, 0, 0, 0, 0, 0, 0, 0, 0, 0, 0⟩ (1/5)
      = ["Review appears genuine"] :=
  (C8_explanation_contract ⟨0, 0, 0, 0, 0, 0, 0, 0, 0, 0, 0, 0, 0, 0, 0, 0, 0, 0, 0⟩ (1/5)).2
    (by norm_num)

/-- **C3.** `save(version)` followed by `load(version)` on a fresh
instance round-trips the three base models, the fitted vectorizer and the
ensemble weights, and the fresh instance's `predict` output on any fixed
input is identical to the original's, with the probability difference
within `1e-12`; the hypotheses fix the non-persisted feature-extractor
(BERT) state, as the spec's "given the same feature extractor state"
proviso requires. -/
theorem C3_save_load_roundtrip (st fresh : ClassifierState)
    (store : List (String × ModelBundle)) (version : String) (threshold : ℚ)
    (tok : List Char → List (List Char)) (pol subj : List Char → ℚ)
    (text : List Char) (rating : ℚ)
    (hb : fresh.use_bert = st.use_bert) (he : fresh.bert_embed = st.bert_embed) :
    ClassifierState.load fresh (ClassifierState.save st store version) version = some st ∧
    ∀ st', ClassifierState.load fresh (ClassifierState.save st store version) version
        = some st' →
      st'.rf_model = st.rf_model ∧ st'.xgb_model = st.xgb_model ∧
      st'.svm_model = st.svm_model ∧ st'.vectorizer = st.vectorizer ∧
      st'.ensemble_weights = st.ensemble_weights ∧
      classifierPredict threshold tok pol subj st' text rating =
        classifierPredict threshold tok pol subj st text rating ∧
      |(classifierPredict threshold tok pol subj st' text rating).fake_probability -
        (classifierPredict threshold tok pol subj st text rating).fake_probability|
          < 1 / 1000000000000 := by
  have hload : ClassifierState.load fresh (ClassifierState.save st store version) version
      = some st := by
    obtain ⟨rf, xg, sv, ve, w, ub, be⟩ := st
    simp only [ClassifierState.load, ClassifierState.save, List.lookup, beq_self_eq_true,
      Option.map_some] at hb he ⊢
    simp [hb, he]
  refine ⟨hload, ?_⟩
  intro st' h
  rw [hload, Option.some_inj] at h
  subst h
  refine ⟨rfl, rfl, rfl, rfl, rfl, rfl, ?_⟩
  simp

/-- Witness for C3 at a concrete state, fresh instance and input. -/
theorem C3_save_load_roundtrip_witness :
    ClassifierState.load
      (ClassifierState.mk (fun _ => 0) (fun _ => 0) (fun _ => 0) (fun _ _ => []) (1, 1, 1)
        false (fun _ => []))
      (ClassifierState.save
        (ClassifierState.mk (fun _ => 1/2) (fun _ => 1/3) (fun _ => 1/4) (fun _ _ => [1])
          (2/5, 7/20, 1/4) false (fun _ => []))
        [] "v1") "v1"
      = some (ClassifierState.mk (fun _ => 1/2) (fun _ => 1/3) (fun _ => 1/4) (fun _ _ => [1])
          (2/5, 7/20, 1/4) false (fun _ => [])) :=
  (C3_save_load_roundtrip
    (ClassifierState.mk (fun _ => 1/2) (fun _ => 1/3) (fun _ => 1/4) (fun _ _ => [1])
      (2/5, 7/20, 1/4) false (fun _ => []))
    (ClassifierState.mk (fun _ => 0) (fun _ => 0) (fun _ => 0) (fun _ _ => []) (1, 1, 1)
      false (fun _ => []))
    [] "v1" (1/2) (fun _ => []) (fun _ => 0) (fun _ => 0) [] 5 rfl rfl).1

/-- **C9 counterexample.** On empty text, `extract_features` sets
`sentence_count = len(re.split(r'[.!?]+', "")) = len([""]) = 1`, so not
every length feature is 0 as the claim states. -/
theorem C9_empty_text_counterexample :
    (extractFeatures (fun _ => []) (fun _ => 0) (fun _ => 0) [] 5).sentence_count = 1 ∧
    ¬ (extractFeatures (fun _ => []) (fun _ => 0) (fun _ => 0) [] 5).sentence_count = 0 := by
  constructor <;> simp [extractFeatures, splitSents]

/-- **C9 (amended).** On empty text `extract_features` returns without
error (it is total) and every length and ratio feature except
`sentence_count` is 0 — in particular the guarded `avg_word_length`,
`uppercase_ratio` and `unique_word_ratio`, whose division branches are
unreachable — while `sentence_count` is 1. `ℚ` has no NaN; the guards are
what keeps the source's floats NaN-free. The hypothesis records that the
external NLTK tokenizer returns no tokens on empty input. -/
theorem C9_empty_text_features (tok : List Char → List (List Char))
    (pol subj : List Char → ℚ) (rating : ℚ) (htok : tok [] = []) :
    (extractFeatures tok pol subj [] rating).text_length = 0 ∧
    (extractFeatures tok pol subj [] rating).word_count = 0 ∧
    (extractFeatures tok pol subj [] rating).avg_word_length = 0 ∧
    (extractFeatures tok pol subj [] rating).uppercase_ratio = 0 ∧
    (extractFeatures tok pol subj [] rating).unique_word_ratio = 0 ∧
    (extractFeatures tok pol subj [] rating).sentence_count = 1 ∧
    (extractFeatures tok pol subj [] rating).exclamation_count = 0 ∧
    (extractFeatures tok pol subj [] rating).question_count = 0 ∧
    (extractFeatures tok pol subj [] rating).digit_count = 0 ∧
    (extractFeatures tok pol subj [] rating).special_char_count = 0 ∧
    (extractFeatures tok pol subj [] rating).repeated_chars = 0 ∧
    (extractFeatures tok pol subj [] rating).all_caps_words = 0 ∧
    (extractFeatures tok pol subj [] rating).spam_phrase_count = 0 ∧
    (extractFeatures tok pol subj [] rating).has_url = 0 ∧
    (extractFeatures tok pol subj [] rating).has_email = 0 := by
  have hclean : cleanList [] = [] := by
    simp [cleanList, collapseWs, emojiPass, subHtml, subEmail, subUrl, replaceSeq,
      pyWords, unwords]
  have hspam : spamPhrases.countP (fun p => containsSub p []) = 0 := by decide
  refine ⟨rfl, ?_, ?_, ?_, ?_, ?_, ?_, ?_, ?_, ?_, ?_, ?_, ?_, ?_, ?_⟩ <;>
    (simp [extractFeatures, hclean, htok, splitSents, repeatedChars, hasEmailSearch,
      containsSub, hspam]; try decide)

/-- Witness for C9 with the tokenizer instantiated at the empty-output
function. -/
theorem C9_empty_text_features_witness :
    (extractFeatures (fun _ => []) (fun _ => 0) (fun _ => 0) [] (5 : ℚ)).word_count = 0 ∧
    (extractFeatures (fun _ => []) (fun _ => 0) (fun _ => 0) [] (5 : ℚ)).avg_word_length = 0 ∧
    (extractFeatures (fun _ => []) (fun _ => 0) (fun _ => 0) [] (5 : ℚ)).sentence_count = 1 := by
  have h := C9_empty_text_features (fun _ => []) (fun _ => 0) (fun _ => 0) 5 rfl
  exact ⟨h.2.1, h.2.2.1, h.2.2.2.2.2.1⟩

/-- **C2 (code evaluated at the failing input).** `extract_features`
re-fits the vectorizer on whatever corpus it is given (`fit_transform`,
classifier line 131): a two-review training corpus yields 6 TF-IDF columns
plus 19 numerical ones, while the single-review corpus that `predict`
builds for the same classifier instance yields 1 TF-IDF column plus 19 —
the widths differ, contradicting the fit-time-vocabulary invariant the
spec states. -/
theorem C2_feature_width_mismatch :
    extractFeaturesWidth ["Good product".data, "Bad quality".data] = 25 ∧
    extractFeaturesWidth ["Nice".data] = 20 ∧
    extractFeaturesWidth ["Good product".data, "Bad quality".data] ≠
      extractFeaturesWidth ["Nice".data] := by
  have h1 : cleanList "Good product".data = "good product".data := by
    simp [cleanList, collapseWs, emojiPass, subHtml, subEmail, subUrl, replaceSeq,
      pyWords, unwords, pyLower, urlHead, emailHead, atFollower, findGt, isSpaceChar,
      mojiHeart, mojiLike, mojiDislike, mojiHappy, mojiSad]
  have h2 : cleanList "Bad quality".data = "bad quality".data := by
    simp [cleanList, collapseWs, emojiPass, subHtml, subEmail, subUrl, replaceSeq,
      pyWords, unwords, pyLower, urlHead, emailHead, atFollower, findGt, isSpaceChar,
      mojiHeart, mojiLike, mojiDislike, mojiHappy, mojiSad]
  have h3 : cleanList "Nice".data = "nice".data := by
    simp [cleanList, collapseWs, emojiPass, subHtml, subEmail, subUrl, replaceSeq,
      pyWords, unwords, pyLower, urlHead, emailHead, atFollower, findGt, isSpaceChar,
      mojiHeart, mojiLike, mojiDislike, mojiHappy, mojiSad]
  have hv1 : fitVocabSize ["good product".data, "bad quality".data] = 6 := by
    have w1 : sklearnTokens "good product".data = ["good".data, "product".data] := by
      simp [sklearnTokens, wordRuns, isWordChar, pyLower]
    have w2 : sklearnTokens "bad quality".data = ["bad".data, "quality".data] := by
      simp [sklearnTokens, wordRuns, isWordChar, pyLower]
    simp only [fitVocabSize, docNgrams, w1, w2, List.flatMap_cons, List.flatMap_nil]
    decide
  have hv2 : fitVocabSize ["nice".data] = 1 := by
    have w3 : sklearnTokens "nice".data = ["nice".data] := by
      simp [sklearnTokens, wordRuns, isWordChar, pyLower]
    simp only [fitVocabSize, docNgrams, w3, List.flatMap_cons, List.flatMap_nil]
    decide
  refine ⟨?_, ?_, ?_⟩ <;>
    simp [extractFeaturesWidth, h1, h2, h3, hv1, hv2]

end FakeReview
